import Mathlib

/-!
Verification of the natural-language specification of `cargo-outdated`
against a shallow embedding of its source (`src/cargo_ops/temp_project.rs`,
`src/cargo_ops/elaborate_workspace.rs`, `src/cargo_ops/pkg_status.rs`,
`src/cli.rs`).

Conventions of the embedding:
* Rust functions that can panic are modelled as `Option`-valued functions,
  with `none` standing for a panic (and, where noted, for a propagated
  error); fallible functions returning `CargoResult` are modelled with
  `Option`/`Except` as noted at each definition.
* `semver::Version` is modelled by the structure `Version` below; its
  total order (`Ord` of the semver crate) is modelled through the
  lexicographic key `Version.key`.  Build metadata is carried and compared
  structurally; its exact ordering relative to the semver crate is a
  harmless approximation, no claim depends on it.
* `semver::VersionReq` is an external black box (spec section 1 declares
  the manifest parser and resolver out of scope); it is abstracted by a
  parse function and a match predicate wherever the code uses it.
* Maps (`toml::value::Table`, `HashMap`) are modelled as association
  lists; iteration order of a map is the order of the list.
-/

/-- `str::contains(char)` of Rust on a decoded string. -/
def strContains (s : String) (c : Char) : Bool := s.toList.contains c

/-- Auxiliary of `strSplitOn`: structural split of a character list. -/
def splitOnCharAux : List Char → Char → List Char → List String
  | [], _, acc => [String.mk acc.reverse]
  | x :: xs, c, acc =>
    if x = c then String.mk acc.reverse :: splitOnCharAux xs c []
    else splitOnCharAux xs c (x :: acc)

/-- `str::split(char)` of Rust (all pieces kept, `""` splits to `[""]`). -/
def strSplitOn (s : String) (c : Char) : List String :=
  splitOnCharAux s.toList c []

/-- `str::trim_start_matches` for a character predicate. -/
def strDropWhile (s : String) (p : Char → Bool) : String :=
  String.mk (s.toList.dropWhile p)

/-- Digit-string to `Nat` (the characters are checked to be digits before
this is applied). -/
def digitsToNat : List Char → Nat → Nat
  | [], acc => acc
  | c :: cs, acc => digitsToNat cs (acc * 10 + (c.toNat - '0'.toNat))

/-- Numeric value of an all-digit string. -/
def strToNat (s : String) : Nat := digitsToNat s.toList 0

/-- First character of a string (`str::starts_with` checks; the argument
is nonempty wherever this is used). -/
def strFront (s : String) : Char := s.toList.headD ' '

/-- One pre-release / build identifier, as ordered by semver:
numeric identifiers (compared numerically) sort below alphanumeric ones
(compared lexicographically). -/
abbrev VIdent := Lex (Nat ⊕ String)

/-- Model of `semver::Version`: triple plus pre-release and build strings.
An empty `pre` means "no pre-release marker" (`pre.is_empty()` in Rust). -/
structure Version where
  major : Nat
  minor : Nat
  patch : Nat
  pre : String
  build : String
deriving DecidableEq, Repr

/-- `s.bytes().all(|b| b.is_ascii_digit())` of the source, on a decoded
string (identical on ASCII; a non-ASCII char fails the test either way). -/
def allDigits (s : String) : Bool := s.toList.all Char.isDigit

/-- semver identifier key: numeric identifiers compare numerically and
below alphanumeric identifiers, which compare lexicographically. -/
def identKey (s : String) : VIdent :=
  toLex (if allDigits s then Sum.inl (strToNat s) else Sum.inr s)

/-- Key of a pre-release string: a version without pre-release sorts above
any pre-release of the same triple, and pre-release identifiers compare
componentwise. -/
def preKey (pre : String) : Lex (Bool × List VIdent) :=
  toLex (pre = "", if pre = "" then [] else (strSplitOn pre '.').map identKey)

/-- Key of the build-metadata string (compared last; empty sorts first). -/
def buildKey (b : String) : Lex (Bool × List VIdent) :=
  toLex (b ≠ "", if b = "" then [] else (strSplitOn b '.').map identKey)

/-- Lexicographic key realizing the total order of `semver::Version`. -/
def Version.key (v : Version) :
    Lex (Nat × Lex (Nat × Lex (Nat ×
      Lex ((Lex (Bool × List VIdent)) × (Lex (Bool × List VIdent)))))) :=
  toLex (v.major, toLex (v.minor, toLex (v.patch,
    toLex (preKey v.pre, buildKey v.build))))

/-- `a < b` on versions (semver `Ord`). -/
def Version.lt (a b : Version) : Bool := decide (a.key < b.key)

/-- `a <= b` on versions (semver `Ord`). -/
def Version.le (a b : Version) : Bool := decide (a.key ≤ b.key)

/-- Split a character list at the first occurrence of `c`; `none` when `c`
does not occur. -/
def splitFirst : List Char → Char → Option (List Char × List Char)
  | [], _ => none
  | x :: xs, c =>
    if x = c then some ([], xs)
    else (splitFirst xs c).map (fun p => (x :: p.1, p.2))

/-- A nonempty all-digit numeric component without leading zeros. -/
def validNumericCore (s : String) : Bool :=
  s ≠ "" && allDigits s && (s = "0" || strFront s ≠ '0')

/-- Characters allowed in semver pre-release/build identifiers. -/
def identChar (c : Char) : Bool := c.isAlphanum || c = '-'

/-- A valid pre-release identifier: nonempty, alphanumeric-or-hyphen, and a
purely numeric one has no leading zeros. -/
def validPreIdent (s : String) : Bool :=
  s ≠ "" && s.toList.all identChar &&
    (if allDigits s then s = "0" || strFront s ≠ '0' else true)

/-- A valid build identifier: nonempty, alphanumeric-or-hyphen. -/
def validBuildIdent (s : String) : Bool := s ≠ "" && s.toList.all identChar

/-- Model of `semver::Version::parse`: `MAJOR.MINOR.PATCH` with optional
`-PRE` and `+BUILD` suffixes; `none` on a malformed string. -/
def parseVersion (s : String) : Option Version :=
  let (vp, build) :=
    match splitFirst s.toList '+' with
    | none => (s.toList, "")
    | some p => (p.1, String.mk p.2)
  let (core, pre) :=
    match splitFirst vp '-' with
    | none => (String.mk vp, "")
    | some p => (String.mk p.1, String.mk p.2)
  if build ≠ "" && !((strSplitOn build '.').all validBuildIdent) then none
  else if (match splitFirst s.toList '+' with | none => false | some p => p.2 = []) then none
  else if pre ≠ "" && !((strSplitOn pre '.').all validPreIdent) then none
  else if (match splitFirst vp '-' with | none => false | some p => p.2 = []) then none
  else
    match strSplitOn core '.' with
    | [a, b, c] =>
      if validNumericCore a && validNumericCore b && validNumericCore c then
        some { major := strToNat a, minor := strToNat b, patch := strToNat c,
               pre := pre, build := build }
      else none
    | _ => none

/-- `pre.split('.').next().unwrap()` of the source: the channel identifier
of a pre-release string (first dot-separated component). -/
def channelOf (pre : String) : String := ((strSplitOn pre '.').headD "")

/-- `requirement.trim_start_matches(&['=', ' ', '~', '^'][..])`. -/
def trimReq (s : String) : String :=
  strDropWhile s (fun c => c = '=' || c = ' ' || c = '~' || c = '^')

/-- Embeds `valid_latest_version` (src/cargo_ops/temp_project.rs:803).
Returns `none` exactly where the source panics (the `.expect` when the
trimmed requirement does not parse as a version, reachable only in the
both-pre-release branch). -/
def valid_latest_version (requirement : String) (version : Version) : Option Bool :=
  match strContains requirement '-', version.pre != "" with
  | false, true => some false
  | false, false => some true
  | true, false => some true
  | true, true =>
    match parseVersion (trimReq requirement) with
    | none => none
    | some requirement_version =>
      let requirement_channel := channelOf requirement_version.pre
      let requirement_channel_numeric := allDigits requirement_channel
      let version_channel := channelOf version.pre
      let version_channel_numeric := allDigits version_channel
      some (match requirement_channel_numeric, version_channel_numeric with
        | false, false => requirement_channel = version_channel
        | true, true => true
        | _, _ => false)

/-- Update status of a package (src/cargo_ops/pkg_status.rs). -/
inductive Status where
  | Unchanged : Status
  | Removed : Status
  | Ver : Version → Status
deriving DecidableEq, Repr

/-- `Status::from_versions` (src/cargo_ops/pkg_status.rs:14). -/
def Status.from_versions (fromv : Version) (tov : Option Version) : Status :=
  match tov with
  | some t => if fromv = t then Status.Unchanged else Status.Ver t
  | none => Status.Removed

/-- `Status::is_changed` (src/cargo_ops/pkg_status.rs:26). -/
def Status.is_changed : Status → Bool
  | Status.Unchanged => false
  | _ => true

/-- `Display for Status` (src/cargo_ops/pkg_status.rs:29). -/
def Version.str (v : Version) : String :=
  toString v.major ++ "." ++ toString v.minor ++ "." ++ toString v.patch ++
    (if v.pre = "" then "" else "-" ++ v.pre) ++
    (if v.build = "" then "" else "+" ++ v.build)

/-- String rendering of a `Status` (the `Display` impl). -/
def Status.str : Status → String
  | Status.Unchanged => "---"
  | Status.Removed => "Removed"
  | Status.Ver v => v.str

/-- `PkgStatus` (src/cargo_ops/pkg_status.rs:40). -/
structure PkgStatus where
  compat : Status
  latest : Status
deriving DecidableEq, Repr

/-- Output format flag (src/cli.rs). -/
inductive Format where
  | List : Format
  | Json : Format
deriving DecidableEq, Repr

/-- Color flag (src/cli.rs). -/
inductive Color where
  | Auto : Color
  | Never : Color
  | Always : Color
deriving DecidableEq, Repr

/-- `Options` (src/cli.rs:37). -/
structure Options where
  format : Format
  color : Color
  features : List String
  ignore : List String
  exclude : List String
  manifest_path : Option String
  quiet : Bool
  verbose : Nat
  exit_code : Int
  packages : List String
  root : Option String
  depth : Option Int
  root_deps_only : Bool
  workspace : Bool
  aggressive : Bool
  workspace_only : Bool
  offline : Bool
deriving DecidableEq, Repr

/-- `Options::all_features` (src/cli.rs:58, identical in src/main.rs:78). -/
def Options.all_features (o : Options) : Bool := o.features.isEmpty

/-- `Options::no_default_features` (src/cli.rs:62, identical in
src/main.rs:80). -/
def Options.no_default_features (o : Options) : Bool :=
  !(o.features.isEmpty || o.features.contains "default")

/-- `is_ascii_whitespace` of Rust. -/
def isAsciiWs (c : Char) : Bool :=
  c = ' ' || c = '\t' || c = '\n' || c = '\x0c' || c = '\r'

/-- Structural splitter on a character class (empty pieces dropped), the
behavior of `split_ascii_whitespace`. -/
def splitClassAux : List Char → (Char → Bool) → List Char → List String
  | [], _, acc => if acc = [] then [] else [String.mk acc.reverse]
  | x :: xs, p, acc =>
    if p x then
      if acc = [] then splitClassAux xs p []
      else String.mk acc.reverse :: splitClassAux xs p []
    else splitClassAux xs p (x :: acc)

/-- `vals.flat_map(|x| x.split_ascii_whitespace())` used by `Options::from`
on every list-valued flag. -/
def splitWsAll (ss : List String) : List String :=
  ss.flatMap (fun s => splitClassAux s.toList isAsciiWs [])

/-- The fields of `clap::ArgMatches` that `Options::from` reads
(src/cli.rs:75), with clap's own comma-splitting already applied to the
list-valued flags and `value_t!` results already decoded. -/
structure ArgMatches where
  format : Format
  color : Color
  features : List String
  ignore : List String
  exclude : List String
  manifest_path : Option String
  quiet : Bool
  verbose : Nat
  exit_code : Option Int
  packages : List String
  root : Option String
  depth : Option Int
  root_deps_only : Bool
  ignore_external_rel : Bool
  workspace : Bool
  aggressive : Bool
  offline : Bool

/-- `impl From<&ArgMatches> for Options` (src/cli.rs:75-135), including the
two trailing overrides for `--root-deps-only` and `--ignore-external-rel`. -/
def Options.fromMatches (m : ArgMatches) : Options :=
  let opts : Options := {
    format := m.format
    color := m.color
    features := splitWsAll m.features
    ignore := splitWsAll m.ignore
    exclude := splitWsAll m.exclude
    manifest_path := m.manifest_path
    quiet := m.quiet
    verbose := m.verbose
    exit_code := m.exit_code.getD 0
    packages := splitWsAll m.packages
    root := m.root
    depth := m.depth
    root_deps_only := m.root_deps_only
    workspace_only := m.ignore_external_rel
    workspace := m.workspace
    aggressive := m.aggressive
    offline := m.offline }
  let opts := if m.root_deps_only then { opts with depth := some 1 } else opts
  if m.ignore_external_rel then
    { opts with depth := some 1, root_deps_only := true }
  else opts

/-- `cargo::core::PackageId`: structural identity (name, version, source). -/
structure PackageId where
  name : String
  version : Version
  source : String
deriving DecidableEq, Repr

/-- Dependency kind (`cargo::core::dependency::DepKind`). -/
inductive DepKind where
  | Normal : DepKind
  | Development : DepKind
  | Build : DepKind
deriving DecidableEq, Repr

/-- The part of `cargo::core::Dependency` the reporter reads: kind and
optional platform predicate string. -/
structure Dependency where
  kind : DepKind
  platform : Option String
deriving DecidableEq, Repr

/-- `ElaborateWorkspace` (src/cargo_ops/elaborate_workspace.rs:32), as read
by `resolve_status`, `print_list` and `print_json`.  `pkg_deps` maps a
package to its dependency edge map (`HashMap<PackageId, Dependency>`,
modelled as a list in the map's iteration order); `none` models a package
absent from the map (indexing panics, `.get` yields `None`).  `current`
models `workspace.current()` (`none` = the `Err` case of a virtual
manifest), `members` the workspace members. -/
structure ElaborateWorkspace where
  pkg_deps : PackageId → Option (List (PackageId × Dependency))
  workspace_mode : Bool
  current : Option PackageId
  members : List PackageId

/-- The keys of a package's dependency edge map, in iteration order. -/
def depKeys (w : ElaborateWorkspace) (pkg : PackageId) : Option (List PackageId) :=
  (w.pkg_deps pkg).map (fun l => l.map Prod.fst)

/-- One queue item of the `resolve_status` breadth-first traversal:
the path from the root and the synchronized cursors in the compat and
latest graphs. -/
structure QItem where
  path : List PackageId
  compat_pkg : Option PackageId
  latest_pkg : Option PackageId

/-- The status cache `pkg_status: HashMap<Vec<PackageId>, PkgStatus>`,
modelled as an insertion list (newest first; an earlier entry for the same
key is shadowed). -/
abbrev StatusCache := List (List PackageId × PkgStatus)

/-- `compat_pkg.and_then(|id| compat.pkg_deps.get(&id)).map(keys)
.and_then(|mut deps| deps.find(|dep| dep.name() == name))` of
src/cargo_ops/elaborate_workspace.rs:261-270. -/
def childCursor (w : ElaborateWorkspace) (cur : Option PackageId) (name : String) :
    Option PackageId :=
  cur.bind (fun id => (depKeys w id).bind (fun deps => deps.find? (fun d => d.name = name)))

/-- The depth guard `options.depth.is_none() || depth < options.depth.unwrap()`
(src/cargo_ops/elaborate_workspace.rs:254, same shape at 343 and 459). -/
def depthAllows (depth : Option Int) (d : Int) : Bool :=
  match depth with
  | none => true
  | some n => d < n

/-- The body of one iteration of the `resolve_status` loop
(src/cargo_ops/elaborate_workspace.rs:235-275): compute and store the
path's status, then — when the depth guard allows — build the next-layer
queue items.  `none` models a panic or error (`EmptyPath`, or indexing a
package missing from `pkg_deps`); on success it returns the items to
enqueue and the grown cache. -/
def resolve_status_step (selfw compat latest : ElaborateWorkspace) (opts : Options)
    (skip : List String) (item : QItem) (cache : StatusCache) :
    Option (List QItem × StatusCache) :=
  match item.path.getLast? with
  | none => none
  | some pkg =>
    let depth : Int := (item.path.length : Int) - 1
    let status : PkgStatus := {
      compat := Status.from_versions pkg.version (item.compat_pkg.map PackageId.version)
      latest := Status.from_versions pkg.version (item.latest_pkg.map PackageId.version) }
    let cache := (item.path, status) :: cache
    if depthAllows opts.depth depth then
      match depKeys selfw pkg with
      | none => none
      | some deps =>
        let children := deps.filter
          (fun d => !(item.path.contains d) && !(skip.contains d.name))
        let newItems := children.map (fun d =>
          { path := item.path ++ [d]
            compat_pkg := childCursor compat item.compat_pkg d.name
            latest_pkg := childCursor latest item.latest_pkg d.name : QItem })
        some (newItems, cache)
    else
      some ([], cache)

/-- The loop of `ElaborateWorkspace::resolve_status`
(src/cargo_ops/elaborate_workspace.rs:232-276), with explicit fuel.
`none` models a panic or error as well as fuel exhaustion; a completed
run returns the final cache. -/
def resolve_status_aux (selfw compat latest : ElaborateWorkspace) (opts : Options)
    (skip : List String) : Nat → List QItem → StatusCache → Option StatusCache
  | _, [], cache => some cache
  | 0, _ :: _, _ => none
  | fuel + 1, item :: rest, cache =>
    match resolve_status_step selfw compat latest opts skip item cache with
    | none => none
    | some (newItems, cache) =>
      resolve_status_aux selfw compat latest opts skip fuel (rest ++ newItems) cache

/-- `ElaborateWorkspace::resolve_status` from the initial queue
`[(vec![root], Some(compat_root), Some(latest_root))]` and a cleared
cache.  The roots in the compat and latest workspaces are determined
before the loop (find_member / determine_root) and are passed in here. -/
def resolve_status (selfw compat latest : ElaborateWorkspace) (opts : Options)
    (root compat_root latest_root : PackageId) (skip : List String)
    (fuel : Nat) : Option StatusCache :=
  resolve_status_aux selfw compat latest opts skip fuel
    [{ path := [root], compat_pkg := some compat_root, latest_pkg := some latest_root }] []

/-- `toml::Value`, restricted to the shapes the rewriting code inspects;
`other` stands for any other variant (integer, float, datetime). -/
inductive TomlValue where
  | str : String → TomlValue
  | boolean : Bool → TomlValue
  | array : List TomlValue → TomlValue
  | table : List (String × TomlValue) → TomlValue
  | other : TomlValue

/-- `toml::value::Table`, modelled as an association list in iteration
order. -/
abbrev Table := List (String × TomlValue)

/-- `Table::get`. -/
def tget (t : Table) (k : String) : Option TomlValue :=
  (t.find? (fun p => p.1 = k)).map (fun p => p.2)

/-- `Table::insert`: replaces the value at an existing key in place,
appends otherwise. -/
def tinsert : Table → String → TomlValue → Table
  | [], k, v => [(k, v)]
  | (k', v') :: rest, k, v =>
    if k' = k then (k, v) :: rest else (k', v') :: tinsert rest k v

/-- The string elements of a feature-spec array (non-strings are skipped
by the `if let Value::String` in the source). -/
def specStrings (vs : List TomlValue) : List String :=
  vs.filterMap (fun v => match v with | TomlValue.str s => some s | _ => none)

/-- The unvisited keys of the features table, measure component for the
worklist loop of `feature_includes`. -/
def unvisitedKeys (ft : Table) (visited : List String) : Nat :=
  ((ft.map Prod.fst).filter (fun k => !(visited.contains k))).length

/-- The worklist loop of `feature_includes`
(src/cargo_ops/temp_project.rs:476-496).  The head of `to_resolve` is the
top of the source's `Vec` stack (`pop` takes from the end, so pushes are
reversed here); `none` models the panic on a features-table entry that is
not an array. -/
def featLoop (ft : Table) (name : String) :
    List String → List String → Option Bool
  | [], _ => some false
  | f :: rest, visited =>
    if f = name then some true
    else if hvis : visited.contains f then featLoop ft name rest visited
    else
      match hft : tget ft f with
      | some (TomlValue.array specs) =>
        featLoop ft name ((specStrings specs).reverse ++ rest) (f :: visited)
      | some _ => none
      | none => featLoop ft name rest (f :: visited)
termination_by to_resolve visited => (unvisitedKeys ft visited, to_resolve.length)
decreasing_by
  · apply Prod.Lex.right
    simp only [List.length_cons]
    omega
  · apply Prod.Lex.left
    have hmem : f ∈ ft.map Prod.fst := by
      unfold tget at hft
      cases hf : ft.find? (fun p => p.1 = f) with
      | none => rw [hf] at hft; simp at hft
      | some a =>
        have ha := List.find?_some hf
        have hamem := List.mem_of_find?_eq_some hf
        have : a.1 = f := by simpa using ha
        exact this ▸ List.mem_map_of_mem Prod.fst hamem
    unfold unvisitedKeys
    have hsplit : ((ft.map Prod.fst).filter (fun k => !((f :: visited).contains k)))
        = (((ft.map Prod.fst).filter (fun k => !(visited.contains k))).filter
            (fun k => !(k == f))) := by
      rw [List.filter_filter]
      apply List.filter_congr
      intro x _
      by_cases hx : x = f <;> simp [hx, List.contains_cons]
    rw [hsplit, List.length_filter_lt_length_iff_exists]
    refine ⟨f, ?_, by simp⟩
    rw [List.mem_filter]
    exact ⟨hmem, by simpa using hvis⟩
  · have hkeep : unvisitedKeys ft (f :: visited) = unvisitedKeys ft visited := by
      unfold unvisitedKeys
      congr 1
      apply List.filter_congr
      intro x hx
      have hxf : x ≠ f := by
        intro hcontra
        subst hcontra
        unfold tget at hft
        cases hf : ft.find? (fun p => p.1 = x) with
        | none =>
          have := List.find?_eq_none.mp hf
          rcases List.mem_map.mp hx with ⟨e, he, hex⟩
          exact absurd (by simpa [hex] using (rfl : x = x)) (by simpa [hex] using this e he)
        | some a => rw [hf] at hft; simp at hft
      simp [List.contains_cons, hxf]
    rw [hkeep]
    apply Prod.Lex.right
    simp only [List.length_cons]
    omega

/-- `TempProject::feature_includes` (src/cargo_ops/temp_project.rs:457).
`none` models the panic on a malformed features table. -/
def feature_includes (opts : Options) (name : String) (optional : Bool)
    (features_table : Option TomlValue) : Option Bool :=
  if opts.all_features then some true
  else if !optional && opts.features.contains "default" then some true
  else
    match features_table with
    | some (TomlValue.table ft) =>
      featLoop ft name ((opts.features.filter (fun f => f ≠ "")).reverse) []
    | _ => some false

/-- `Summary` (cargo's registry summary), restricted to what the rewriting
code reads: the candidate version, its advertised features and its
optional dependencies. -/
structure Summary where
  version : Version
  features : List String
  optional_deps : List String
deriving DecidableEq, Repr

/-- `features_and_options` (src/cargo_ops/temp_project.rs:726). -/
def features_and_options (s : Summary) : List String :=
  s.features ++ s.optional_deps

/-- Outcome of one `TempProject::find_update` call, abstracted: the
querying itself is I/O (registry access); `none` is the `Err` case that
the caller catches and reports.  Arguments: dependency name passed to the
query, requirement, `find_latest`. -/
abbrev FindUpdateFn := String → Option String → Bool → Option Summary

/-- The body of the `Value::Table` arm of `update_version_and_feature`
(src/cargo_ops/temp_project.rs:547-642) after the name/`package` dance:
`orig_name` is the `package` rename (empty when absent).  Returns
`none` for a panic, `some (inl deps)` for the early `return Ok(())` taken
when the query fails (the whole call ends with the table as it stands),
and `some (inr deps)` to continue with the next key. -/
def uvafTableArm (opts : Options) (fu : FindUpdateFn) (features : Option TomlValue)
    (version_to_latest : Bool) (dep_key : String) (t : Table) (orig_name : String)
    (deps : Table) : Option (Table ⊕ Table) :=
  if !(version_to_latest || (tget t "features").isSome) then some (Sum.inr deps)
  else
    let optional := match tget t "optional" with
      | some (TomlValue.boolean b) => b
      | _ => false
    match feature_includes opts dep_key optional features with
    | none => none
    | some false => some (Sum.inr deps)
    | some true =>
      match
        (match tget t "version" with
         | some (TomlValue.str r) => some (some r)
         | some _ => none
         | none => some none : Option (Option String)) with
      | none => none
      | some requirement =>
        match fu (if orig_name = "" then dep_key else orig_name) requirement
            version_to_latest with
        | none => some (Sum.inl deps)
        | some summary =>
          let replaced := t
          let replaced :=
            if version_to_latest && (tget t "version").isSome then
              tinsert replaced "version" (TomlValue.str summary.version.str)
            else replaced
          match tget replaced "features" with
          | some (TomlValue.array feats) =>
            if feats.all (fun f => match f with | TomlValue.str _ => true | _ => false) then
              let kept := feats.filter (fun f =>
                match f with
                | TomlValue.str s => (features_and_options summary).contains s
                | _ => false)
              some (Sum.inr (tinsert deps dep_key
                (TomlValue.table (tinsert replaced "features" (TomlValue.array kept)))))
            else none
          | some _ => none
          | none => some (Sum.inr (tinsert deps dep_key (TomlValue.table replaced)))

/-- The key loop of `TempProject::update_version_and_feature`
(src/cargo_ops/temp_project.rs:500-646), iterating over the snapshot of
the dependency table's keys.  `none` models a panic or the
`NoMatchingDependency` error; `some` is the `Ok(())` return, carrying the
rewritten table. -/
def update_version_and_feature_go (opts : Options) (fu : FindUpdateFn)
    (features : Option TomlValue) (version_to_latest : Bool) :
    List String → Table → Option Table
  | [], deps => some deps
  | dep_key :: keys, deps =>
    if opts.exclude.contains dep_key then
      update_version_and_feature_go opts fu features version_to_latest keys deps
    else
      match tget deps dep_key with
      | none => none
      | some (TomlValue.str requirement) =>
        if version_to_latest then
          match fu dep_key (some requirement) version_to_latest with
          | some summary =>
            update_version_and_feature_go opts fu features version_to_latest keys
              (tinsert deps dep_key (TomlValue.str summary.version.str))
          | none =>
            update_version_and_feature_go opts fu features version_to_latest keys deps
        else
          update_version_and_feature_go opts fu features version_to_latest keys deps
      | some (TomlValue.table t) =>
        let orig_name :=
          match tget t "package" with
          | some (TomlValue.str s) => some s
          | some _ => none
          | none => some ""
        match orig_name with
        | none => none
        | some orig_name =>
          match uvafTableArm opts fu features version_to_latest dep_key t orig_name deps with
          | none => none
          | some (Sum.inl deps) => some deps
          | some (Sum.inr deps) =>
            update_version_and_feature_go opts fu features version_to_latest keys deps
      | some _ => none

/-- `TempProject::update_version_and_feature` on one dependency table:
collects the keys, then runs the loop. -/
def update_version_and_feature (opts : Options) (fu : FindUpdateFn)
    (features : Option TomlValue) (version_to_latest : Bool) (deps : Table) :
    Option Table :=
  update_version_and_feature_go opts fu features version_to_latest
    (deps.map Prod.fst) deps

/-- `Iterator::find` over a list with a possibly-panicking predicate
(`none` = the predicate panicked; `some none` = no element accepted). -/
def findFirstM {α : Type} (p : α → Option Bool) : List α → Option (Option α)
  | [] => some none
  | x :: xs =>
    match p x with
    | none => none
    | some true => some (some x)
    | some false => findFirstM p xs

/-- The candidate filter of `TempProject::find_update`
(src/cargo_ops/temp_project.rs:412-426).  `requirement` pairs the raw
requirement text with its parsed form (the closure reads both); `Req` and
`reqMatches` abstract `semver::VersionReq` (out of scope per the spec).
`none` models the panic inside `valid_latest_version`. -/
def findUpdatePred {Req : Type} (reqMatches : Req → Version → Bool) (opts : Options)
    (version : Version) (requirement : Option (String × Req)) (find_latest : Bool)
    (summary : Summary) : Option Bool :=
  if Version.lt summary.version version then some false
  else
    match requirement with
    | none => some true
    | some (r, vr) =>
      if find_latest then
        if opts.aggressive then some true
        else valid_latest_version r summary.version
      else some (reqMatches vr summary.version)

/-- The total form of the `find_update` candidate filter, equal to
`findUpdatePred` on every input where the filter cannot panic: a
candidate survives when it is not strictly below the resolved version
and — if a requirement exists — passes the channel check (latest mode,
unless `aggressive`) or matches the requirement. -/
def survives {Req : Type} (reqMatches : Req → Version → Bool) (opts : Options)
    (version : Version) (requirement : Option (String × Req)) (find_latest : Bool)
    (summary : Summary) : Bool :=
  if Version.lt summary.version version then false
  else
    match requirement with
    | none => true
    | some (r, vr) =>
      if find_latest then
        opts.aggressive || (valid_latest_version r summary.version).getD false
      else reqMatches vr summary.version

/-- Selection step of `find_update`: first accepted candidate of the
descending-sorted list, else the overall highest with a warning
(`true` in the result means the warning was emitted); `none` = panic
(indexing `query_result[0]` of an empty result, or a panicking filter). -/
def find_update_select (pred : Summary → Option Bool) (query_result : List Summary) :
    Option (Except Unit (Summary × Bool)) :=
  match findFirstM pred query_result with
  | none => none
  | some (some s) => some (Except.ok (s, false))
  | some none =>
    match query_result.head? with
    | none => none
    | some top => some (Except.ok (top, true))

/-- `TempProject::find_update` (src/cargo_ops/temp_project.rs:381) from the
raw query result on: sort candidates by version descending, parse the
requirement (its failure is the function's `Err`, reported by the caller),
filter, and fall back to the overall highest candidate.  The registry
query itself and `find_direct_dependency` are I/O and happen before the
part modelled here; `version` is the currently resolved version. -/
def find_update {Req : Type} (parseReq : String → Option Req)
    (reqMatches : Req → Version → Bool) (opts : Options) (version : Version)
    (query_result_raw : List Summary) (requirement : Option String)
    (find_latest : Bool) : Option (Except Unit (Summary × Bool)) :=
  let query_result := query_result_raw.mergeSort
    (fun a b => Version.le b.version a.version)
  match requirement with
  | some r =>
    match parseReq r with
    | none => some (Except.error ())
    | some vr =>
      find_update_select
        (findUpdatePred reqMatches opts version (some (r, vr)) find_latest) query_result
  | none =>
    find_update_select
      (findUpdatePred reqMatches opts version none find_latest) query_result

/-- Lookup in the status cache (`self.pkg_status.borrow_mut()[&path]`;
`none` = the panic on a missing key). -/
def cacheGet (cache : StatusCache) (path : List PackageId) : Option PkgStatus :=
  (cache.find? (fun e => e.1 = path)).map (fun e => e.2)

/-- `self.pkg_deps[parent][pkg]` (`none` = panic on either lookup). -/
def edgeGet (w : ElaborateWorkspace) (parent child : PackageId) : Option Dependency :=
  (w.pkg_deps parent).bind
    (fun l => (l.find? (fun e => e.1 = child)).map (fun e => e.2))

/-- `{:?}` on `DepKind` (derived `Debug`). -/
def DepKind.dbg : DepKind → String
  | DepKind.Normal => "Normal"
  | DepKind.Development => "Development"
  | DepKind.Build => "Build"

/-- The label rule shared by `print_list` and `print_json`
(src/cargo_ops/elaborate_workspace.rs:310-316 and 422-428): bare name in
workspace mode or when the parent is the current member, otherwise
`parent->name`; `none` models the `?` on `workspace.current()` of a
virtual workspace (only reached when `workspace_mode` is false). -/
def labelOf (w : ElaborateWorkspace) (parent pkg : PackageId) : Option String :=
  if w.workspace_mode then some pkg.name
  else
    match w.current with
    | none => none
    | some cur =>
      some (if parent = cur then pkg.name else parent.name ++ "->" ++ pkg.name)

/-- The line built for one visited node of `print_list`
(src/cargo_ops/elaborate_workspace.rs:307-339). -/
def listLine (w : ElaborateWorkspace) (path : List PackageId) (pkg : PackageId)
    (status : PkgStatus) : Option String :=
  match (if path.length ≥ 2 then path.get? (path.length - 2) else none) with
  | some parent =>
    match edgeGet w parent pkg with
    | none => none
    | some dependency =>
      match labelOf w parent pkg with
      | none => none
      | some label =>
        some (label ++ "\t" ++ pkg.version.str ++ "\t" ++ status.compat.str ++ "\t"
          ++ status.latest.str ++ "\t" ++ dependency.kind.dbg ++ "\t"
          ++ (dependency.platform.getD "---") ++ "\n")
  | none =>
    some (pkg.name ++ "\t" ++ pkg.version.str ++ "\t" ++ status.compat.str ++ "\t"
      ++ status.latest.str ++ "\t---\t---\n")

/-- The body of one iteration of the `print_list` loop
(src/cargo_ops/elaborate_workspace.rs:292-357): skip ignored names before
anything else, look the path up in the status cache, emit one line when a
side changed and the packages filter passes, then build the next-layer
paths under the depth guard.  For the proofs each produced line is kept
paired with the traversal path that produced it (the loop variable); the
source inserts the bare lines into a `BTreeSet<String>`, which only sorts
and de-duplicates what is collected here, so which nodes contribute
output is unchanged. -/
def print_list_step (w : ElaborateWorkspace) (opts : Options) (cache : StatusCache)
    (skip : List String) (path : List PackageId) (acc : List (List PackageId × String)) :
    Option (List (List PackageId) × List (List PackageId × String)) :=
  match path.getLast? with
  | none => none
  | some pkg =>
    if opts.ignore.contains pkg.name then some ([], acc)
    else
      let depth : Int := (path.length : Int) - 1
      match cacheGet cache path with
      | none => none
      | some status =>
        let emitted : Option (List (List PackageId × String)) :=
          if (status.compat.is_changed || status.latest.is_changed)
              && (opts.packages.isEmpty || opts.packages.contains pkg.name) then
            match listLine w path pkg status with
            | none => none
            | some line => some (acc ++ [(path, line)])
          else some acc
        match emitted with
        | none => none
        | some acc =>
          if depthAllows opts.depth depth then
            match depKeys w pkg with
            | none => none
            | some deps =>
              let children := deps.filter (fun dep =>
                !(path.contains dep)
                && (!w.workspace_mode || !(w.members.contains dep))
                && !(skip.contains dep.name))
              some (children.map (fun dep => path ++ [dep]), acc)
          else some ([], acc)

/-- The loop of `ElaborateWorkspace::print_list`
(src/cargo_ops/elaborate_workspace.rs:282-358), with explicit fuel. -/
def print_list_aux (w : ElaborateWorkspace) (opts : Options) (cache : StatusCache)
    (skip : List String) :
    Nat → List (List PackageId) → List (List PackageId × String) →
    Option (List (List PackageId × String))
  | _, [], acc => some acc
  | 0, _ :: _, _ => none
  | fuel + 1, path :: queue, acc =>
    match print_list_step w opts cache skip path acc with
    | none => none
    | some (newPaths, acc) =>
      print_list_aux w opts cache skip fuel (queue ++ newPaths) acc

/-- `ElaborateWorkspace::print_list` from the initial queue `[vec![root]]`. -/
def print_list (w : ElaborateWorkspace) (opts : Options) (cache : StatusCache)
    (root : PackageId) (skip : List String) (fuel : Nat) :
    Option (List (List PackageId × String)) :=
  print_list_aux w opts cache skip fuel [[root]] []

/-- `Metadata` (src/cargo_ops/elaborate_workspace.rs:49), whose derived
`PartialEq` compares every field. -/
structure Metadata where
  name : String
  project : String
  compat : String
  latest : String
  kind : Option String
  platform : Option String
deriving DecidableEq, Repr

/-- The manual `Ord for Metadata`
(src/cargo_ops/elaborate_workspace.rs:59-61): it compares only `name`
(`self.name.cmp(&other.name)`, written out as the three-way comparison on
strings). -/
def Metadata.cmpName (a b : Metadata) : Ordering :=
  if a.name < b.name then Ordering.lt
  else if a.name = b.name then Ordering.eq
  else Ordering.gt

/-- `BTreeSet<Metadata>::insert` under `Metadata`'s `Ord`: sorted insert
by name; an element whose name is already present is NOT inserted (the
set keeps its existing element). -/
def insertMetadata : List Metadata → Metadata → List Metadata
  | [], m => [m]
  | x :: xs, m =>
    match Metadata.cmpName m x with
    | Ordering.lt => m :: x :: xs
    | Ordering.eq => x :: xs
    | Ordering.gt => x :: insertMetadata xs m

/-- The `Metadata` built for one visited node of `print_json`
(src/cargo_ops/elaborate_workspace.rs:413-453). -/
def jsonLine (w : ElaborateWorkspace) (path : List PackageId) (pkg : PackageId)
    (status : PkgStatus) : Option Metadata :=
  match (if path.length > 1 then path.get? (path.length - 2) else none) with
  | some parent =>
    match edgeGet w parent pkg with
    | none => none
    | some dependency =>
      match labelOf w parent pkg with
      | none => none
      | some label =>
        some { name := label, project := pkg.version.str,
               compat := status.compat.str, latest := status.latest.str,
               kind := some dependency.kind.dbg,
               platform := dependency.platform }
  | none =>
    some { name := pkg.name, project := pkg.version.str,
           compat := status.compat.str, latest := status.latest.str,
           kind := none, platform := none }

/-- The body of one iteration of the `print_json` loop
(src/cargo_ops/elaborate_workspace.rs:398-476).  `set` is
`crate_graph.dependencies` (the `BTreeSet<Metadata>`); `att` records every
insertion attempt with the traversal path that produced it, for the
proofs. -/
def print_json_step (w : ElaborateWorkspace) (opts : Options) (cache : StatusCache)
    (skip : List String) (path : List PackageId) (set : List Metadata)
    (att : List (List PackageId × Metadata)) :
    Option (List (List PackageId) × List Metadata × List (List PackageId × Metadata)) :=
  match path.getLast? with
  | none => none
  | some pkg =>
    if opts.ignore.contains pkg.name then some ([], set, att)
    else
      let depth : Int := (path.length : Int) - 1
      match cacheGet cache path with
      | none => none
      | some status =>
        let emitted : Option (List Metadata × List (List PackageId × Metadata)) :=
          if (status.compat.is_changed || status.latest.is_changed)
              && (opts.packages.isEmpty || opts.packages.contains pkg.name) then
            match jsonLine w path pkg status with
            | none => none
            | some line => some (insertMetadata set line, att ++ [(path, line)])
          else some (set, att)
        match emitted with
        | none => none
        | some (set, att) =>
          if depthAllows opts.depth depth then
            match depKeys w pkg with
            | none => none
            | some deps =>
              let children := deps.filter (fun dep =>
                !(path.contains dep)
                && (!w.workspace_mode || !(w.members.contains dep))
                && !(skip.contains dep.name))
              some (children.map (fun dep => path ++ [dep]), set, att)
          else some ([], set, att)

/-- The loop of `print_json`, with explicit fuel. -/
def print_json_aux (w : ElaborateWorkspace) (opts : Options) (cache : StatusCache)
    (skip : List String) :
    Nat → List (List PackageId) → List Metadata → List (List PackageId × Metadata) →
    Option (List Metadata × List (List PackageId × Metadata))
  | _, [], set, att => some (set, att)
  | 0, _ :: _, _, _ => none
  | fuel + 1, path :: queue, set, att =>
    match print_json_step w opts cache skip path set att with
    | none => none
    | some (newPaths, set, att) =>
      print_json_aux w opts cache skip fuel (queue ++ newPaths) set att

/-- `ElaborateWorkspace::print_json` from the initial queue `[vec![root]]`
and an empty dependency set. -/
def print_json (w : ElaborateWorkspace) (opts : Options) (cache : StatusCache)
    (root : PackageId) (skip : List String) (fuel : Nat) :
    Option (List Metadata × List (List PackageId × Metadata)) :=
  print_json_aux w opts cache skip fuel [[root]] [] []

/-- Shapes of a dependency entry on which `update_version_and_feature`
cannot panic: a string, or a table whose `package`/`version` entries (if
any) are strings and whose `features` entry (if any) is an array of
strings.  (Any entry produced by parsing a well-formed manifest
dependency table has this shape.) -/
def wfDepValue : TomlValue → Bool
  | TomlValue.str _ => true
  | TomlValue.table t =>
    (match tget t "package" with
     | some (TomlValue.str _) => true
     | some _ => false
     | none => true)
    && (match tget t "version" with
        | some (TomlValue.str _) => true
        | some _ => false
        | none => true)
    && (match tget t "features" with
        | some (TomlValue.array vs) =>
          vs.all (fun v => match v with | TomlValue.str _ => true | _ => false)
        | some _ => false
        | none => true)
  | _ => false

/-- All entries of a dependency table are panic-free shapes. -/
def wfDeps (deps : Table) : Bool := deps.all (fun p => wfDepValue p.2)

/-- The features table (if a table at all) maps every feature to an array,
so `feature_includes` cannot panic. -/
def wfFeatures : Option TomlValue → Bool
  | some (TomlValue.table ft) =>
    ft.all (fun p => match p.2 with | TomlValue.array _ => true | _ => false)
  | _ => true

/-- Upper bound on the out-degree of the traversal graph over the vertex
list `V`. -/
def outDegreeBound (selfw : ElaborateWorkspace) (V : List PackageId) : Nat :=
  (V.map (fun v => match depKeys selfw v with
    | some l => l.length
    | none => 0)).foldr max 0

/-- Weight of a queue item of path length `l`, for the termination measure
of the `resolve_status` traversal: `(D+1)^(B+1-l)`. -/
def pathWeight (D B l : Nat) : Nat := (D + 1) ^ (B + 1 - l)

/-- Total weight of the queue. -/
def queueWeight (D B : Nat) (q : List QItem) : Nat :=
  (q.map (fun it => pathWeight D B it.path.length)).sum

/-- Invariant of the `resolve_status` queue: every queued path is
nonempty, duplicate-free and drawn from the vertex list `V`. -/
def QInv (V : List PackageId) (q : List QItem) : Prop :=
  ∀ it ∈ q, it.path ≠ [] ∧ it.path.Nodup ∧ ∀ x ∈ it.path, x ∈ V

/-- Shape of every entry the `resolve_status` loop stores: its status pair
is `Status::from_versions` of the visited package's version against the
cursor versions, and each side is "changed" exactly when that cursor
version is absent or differs. -/
def StoredShape (e : List PackageId × PkgStatus) : Prop :=
  ∃ pkg cv lv, e.1.getLast? = some pkg ∧
    e.2.compat = Status.from_versions pkg.version cv ∧
    e.2.latest = Status.from_versions pkg.version lv ∧
    (e.2.compat.is_changed = true ↔ cv ≠ some pkg.version) ∧
    (e.2.latest.is_changed = true ↔ lv ≠ some pkg.version)

/-- Fixture: version 1.0.0. -/
def ver1 : Version := { major := 1, minor := 0, patch := 0, pre := "", build := "" }

/-- Fixture: version 2.0.0. -/
def ver2 : Version := { major := 2, minor := 0, patch := 0, pre := "", build := "" }

/-- Fixture: an `Options` value with every flag at its default. -/
def optsDefault : Options :=
  { format := Format.List, color := Color.Auto, features := [], ignore := [],
    exclude := [], manifest_path := none, quiet := false, verbose := 0,
    exit_code := 0, packages := [], root := none, depth := none,
    root_deps_only := false, workspace := false, aggressive := false,
    workspace_only := false, offline := false }

/-- Fixture: a root package. -/
def pkgR : PackageId := { name := "root", version := ver1, source := "src" }

/-- Fixture: a dependency package `a`. -/
def pkgA : PackageId := { name := "a", version := ver1, source := "reg" }

/-- Fixture: a dependency package `b`. -/
def pkgB : PackageId := { name := "b", version := ver1, source := "reg" }

/-- Fixture: a workspace with the root package and no dependencies. -/
def wsSingle : ElaborateWorkspace :=
  { pkg_deps := fun p => if p = pkgR then some [] else none,
    workspace_mode := false, current := some pkgR, members := [pkgR] }

/-- Fixture: a workspace whose graph has the cycle `a -> b -> a` below the
root. -/
def wsCycle : ElaborateWorkspace :=
  { pkg_deps := fun p =>
      if p = pkgR then some [(pkgA, { kind := DepKind.Normal, platform := none })]
      else if p = pkgA then some [(pkgB, { kind := DepKind.Normal, platform := none })]
      else if p = pkgB then some [(pkgA, { kind := DepKind.Normal, platform := none })]
      else none,
    workspace_mode := false, current := some pkgR, members := [pkgR] }

/-- Fixture: default options with the package name "a" ignored. -/
def optsIgnoreA : Options := { optsDefault with ignore := ["a"] }

/-- Fixture: a status cache holding a changed status for the root path. -/
def cacheRch : StatusCache :=
  [([pkgR], { compat := Status.Ver ver2, latest := Status.Unchanged })]

/-- Fixture: a `Metadata` row for a dependency `dep` at 1.0.0. -/
def mdDep1 : Metadata :=
  { name := "dep", project := "1.0.0", compat := "1.0.0", latest := "1.0.0",
    kind := some "Normal", platform := none }

/-- Fixture: a `Metadata` row with the same name as `mdDep1` but a
different `project` field. -/
def mdDep2 : Metadata :=
  { name := "dep", project := "2.0.0", compat := "2.0.0", latest := "2.0.0",
    kind := some "Normal", platform := none }

/-- C8: for every `Options` value, `all_features()` is true iff the
features list is empty, and `no_default_features()` is true iff the
features list is non-empty and does not contain the string "default"
(src/cli.rs:57-73, src/main.rs:77-87). -/
theorem claim_all_features_no_default_features :
    ∀ o : Options,
      (o.all_features = true ↔ o.features = []) ∧
      (o.no_default_features = true ↔ o.features ≠ [] ∧ "default" ∉ o.features) := by
  intro o
  constructor
  · simp [Options.all_features, List.isEmpty_iff]
  · simp only [Options.no_default_features, Bool.not_eq_true', Bool.or_eq_false_iff]
    constructor
    · intro h
      refine ⟨?_, ?_⟩
      · have := h.1
        rw [List.isEmpty_eq_false_iff_exists_mem] at this
        rcases this with ⟨x, hx⟩
        intro hcontra
        rw [hcontra] at hx
        simp at hx
      · have := h.2
        simpa using this
    · intro h
      refine ⟨?_, by simpa using h.2⟩
      cases hf : o.features with
      | nil => exact absurd hf h.1
      | cons a l => simp

/-- C2: the channel rule of `valid_latest_version`
(src/cargo_ops/temp_project.rs:803-830).  The five concrete vectors of the
spec, and the three general clauses: a requirement without pre-release
marker (no `-` in its text) rejects a pre-release candidate; any
candidate without pre-release is accepted; and when both carry markers
the candidate is accepted iff both channel identifiers are numeric or
both are the same non-numeric (alphabetic) identifier. -/
theorem claim_valid_latest_version_channel_rule :
    valid_latest_version "1.0.0"
        { major := 2, minor := 0, patch := 0, pre := "alpha", build := "" } = some false ∧
    valid_latest_version "1.0.0-alpha"
        { major := 2, minor := 0, patch := 0, pre := "", build := "" } = some true ∧
    valid_latest_version "1.0.0-alpha.1"
        { major := 2, minor := 0, patch := 0, pre := "alpha.3", build := "" } = some true ∧
    valid_latest_version "1.0.0-alpha"
        { major := 2, minor := 0, patch := 0, pre := "beta", build := "" } = some false ∧
    valid_latest_version "1.0.0"
        { major := 2, minor := 0, patch := 0, pre := "", build := "" } = some true ∧
    (∀ (req : String) (v : Version), strContains req '-' = false → v.pre ≠ "" →
      valid_latest_version req v = some false) ∧
    (∀ (req : String) (v : Version), v.pre = "" →
      valid_latest_version req v = some true) ∧
    (∀ (req : String) (v : Version) (rv : Version),
      strContains req '-' = true → v.pre ≠ "" →
      parseVersion (trimReq req) = some rv →
      (valid_latest_version req v = some true ↔
        ((allDigits (channelOf rv.pre) = true ∧ allDigits (channelOf v.pre) = true) ∨
         (allDigits (channelOf rv.pre) = false ∧ allDigits (channelOf v.pre) = false ∧
          channelOf rv.pre = channelOf v.pre)))) := by
  refine ⟨by decide, by decide, by decide, by decide, by decide, ?_, ?_, ?_⟩
  · intro req v hc hp
    have hp' : (v.pre != "") = true := by simpa using hp
    simp [valid_latest_version, hc, hp']
  · intro req v hp
    have hp' : (v.pre != "") = false := by simpa using hp
    cases hc : strContains req '-' <;> simp [valid_latest_version, hc, hp']
  · intro req v rv hc hp hparse
    have hp' : (v.pre != "") = true := by simpa using hp
    simp only [valid_latest_version, hc, hp', hparse]
    cases h1 : allDigits (channelOf rv.pre) <;> cases h2 : allDigits (channelOf v.pre) <;>
      simp [h1, h2]

/-- Witness for the C2 theorem: each hypothesis-bearing clause applied at
a concrete input. -/
theorem claim_valid_latest_version_channel_rule_witness :
    valid_latest_version "2.0"
        { major := 3, minor := 0, patch := 0, pre := "rc.1", build := "" } = some false ∧
    valid_latest_version "weird"
        { major := 3, minor := 0, patch := 0, pre := "", build := "" } = some true ∧
    valid_latest_version "=1.0.0-alpha.1"
        { major := 2, minor := 0, patch := 0, pre := "alpha.2", build := "" } = some true :=
  ⟨claim_valid_latest_version_channel_rule.2.2.2.2.2.1 "2.0"
      { major := 3, minor := 0, patch := 0, pre := "rc.1", build := "" }
      (by decide) (by decide),
   claim_valid_latest_version_channel_rule.2.2.2.2.2.2.1 "weird"
      { major := 3, minor := 0, patch := 0, pre := "", build := "" } (by decide),
   (claim_valid_latest_version_channel_rule.2.2.2.2.2.2.2 "=1.0.0-alpha.1"
      { major := 2, minor := 0, patch := 0, pre := "alpha.2", build := "" }
      { major := 1, minor := 0, patch := 0, pre := "alpha.1", build := "" }
      (by decide) (by decide) (by decide)).mpr
      (Or.inr ⟨by decide, by decide, by decide⟩)⟩

theorem is_changed_from_versions (f : Version) (t : Option Version) :
    (Status.from_versions f t).is_changed = true ↔ t ≠ some f := by
  cases t with
  | none => simp [Status.from_versions, Status.is_changed]
  | some v =>
    by_cases hv : f = v
    · subst hv
      simp [Status.from_versions, Status.is_changed]
    · simp only [Status.from_versions, if_neg hv, Status.is_changed]
      constructor
      · intro _ hcontra
        injection hcontra with h
        exact hv h.symm
      · intro _
        trivial

theorem resolve_status_step_cache {selfw compat latest : ElaborateWorkspace}
    {opts : Options} {skip : List String} {item : QItem} {cache : StatusCache}
    {newItems : List QItem} {cache' : StatusCache}
    (h : resolve_status_step selfw compat latest opts skip item cache
      = some (newItems, cache')) :
    ∃ pkg, item.path.getLast? = some pkg ∧
      cache' = (item.path,
        { compat := Status.from_versions pkg.version (item.compat_pkg.map PackageId.version)
          latest := Status.from_versions pkg.version (item.latest_pkg.map PackageId.version)
          : PkgStatus }) :: cache := by
  unfold resolve_status_step at h
  cases hlast : item.path.getLast? with
  | none => rw [hlast] at h; simp at h
  | some pkg =>
    rw [hlast] at h
    refine ⟨pkg, rfl, ?_⟩
    by_cases hd : depthAllows opts.depth ((item.path.length : Int) - 1)
    · simp only [hd, if_true] at h
      cases hdk : depKeys selfw pkg with
      | none => rw [hdk] at h; simp at h
      | some deps =>
        rw [hdk] at h
        simp only [Option.some.injEq, Prod.mk.injEq] at h
        exact h.2.symm
    · simp only [hd, if_false, Bool.false_eq_true] at h
      simp only [Option.some.injEq, Prod.mk.injEq] at h
      exact h.2.symm

theorem resolve_status_aux_stored (selfw compat latest : ElaborateWorkspace)
    (opts : Options) (skip : List String) :
    ∀ (fuel : Nat) (q : List QItem) (cache0 cache : StatusCache),
      (∀ e ∈ cache0, StoredShape e) →
      resolve_status_aux selfw compat latest opts skip fuel q cache0 = some cache →
      ∀ e ∈ cache, StoredShape e := by
  intro fuel
  induction fuel with
  | zero =>
    intro q cache0 cache h0 hrun
    cases q with
    | nil =>
      simp only [resolve_status_aux, Option.some.injEq] at hrun
      exact fun e he => h0 e (hrun ▸ he)
    | cons it rest => simp [resolve_status_aux] at hrun
  | succ fuel ih =>
    intro q cache0 cache h0 hrun
    cases q with
    | nil =>
      simp only [resolve_status_aux, Option.some.injEq] at hrun
      exact fun e he => h0 e (hrun ▸ he)
    | cons it rest =>
      rw [resolve_status_aux] at hrun
      cases hstep : resolve_status_step selfw compat latest opts skip it cache0 with
      | none => rw [hstep] at hrun; simp at hrun
      | some pr =>
        obtain ⟨newItems, cache1⟩ := pr
        rw [hstep] at hrun
        obtain ⟨pkg, hlast, hc1⟩ := resolve_status_step_cache hstep
        refine ih (rest ++ newItems) cache1 cache ?_ hrun
        intro e he
        rw [hc1] at he
        rcases List.mem_cons.mp he with h | h
        · subst h
          exact ⟨pkg, it.compat_pkg.map PackageId.version,
            it.latest_pkg.map PackageId.version, hlast, rfl, rfl,
            is_changed_from_versions _ _, is_changed_from_versions _ _⟩
        · exact h0 e h

/-- C4: `Status::from_versions` returns `Unchanged` when the target
version is present and equal, `Version(to)` when present and different,
and `Removed` when absent (src/cargo_ops/pkg_status.rs:13-27); hence for
every entry `resolve_status` stores, each side's `is_changed()` holds iff
the corresponding cursor version is absent or differs from the current
version (src/cargo_ops/elaborate_workspace.rs:234-251). -/
theorem claim_status_from_versions :
    (∀ f : Version, Status.from_versions f (some f) = Status.Unchanged) ∧
    (∀ f t : Version, t ≠ f → Status.from_versions f (some t) = Status.Ver t) ∧
    (∀ f : Version, Status.from_versions f none = Status.Removed) ∧
    (∀ (f : Version) (t : Option Version),
      (Status.from_versions f t).is_changed = true ↔ t ≠ some f) ∧
    (∀ (selfw compat latest : ElaborateWorkspace) (opts : Options)
       (root compat_root latest_root : PackageId) (skip : List String)
       (fuel : Nat) (cache : StatusCache),
      resolve_status selfw compat latest opts root compat_root latest_root skip fuel
        = some cache →
      ∀ e ∈ cache, StoredShape e) := by
  refine ⟨?_, ?_, ?_, is_changed_from_versions, ?_⟩
  · intro f
    simp [Status.from_versions]
  · intro f t ht
    have hft : ¬ f = t := fun h => ht h.symm
    simp [Status.from_versions, hft]
  · intro f
    simp [Status.from_versions]
  · intro selfw compat latest opts root compat_root latest_root skip fuel cache hrun
    exact resolve_status_aux_stored selfw compat latest opts skip fuel _ [] cache
      (by intro e he; simp at he) hrun

/-- Witness for the C4 theorem: the hypothesis-bearing clauses applied at
concrete inputs, including a complete `resolve_status` run on the
single-package workspace. -/
theorem claim_status_from_versions_witness :
    Status.from_versions ver1 (some ver2) = Status.Ver ver2 ∧
    StoredShape ([pkgR],
      { compat := Status.Unchanged, latest := Status.Unchanged : PkgStatus }) :=
  ⟨claim_status_from_versions.2.1 ver1 ver2 (by decide),
   claim_status_from_versions.2.2.2.2 wsSingle wsSingle wsSingle optsDefault
     pkgR pkgR pkgR [] 2
     [([pkgR], { compat := Status.Unchanged, latest := Status.Unchanged })]
     (by decide)
     ([pkgR], { compat := Status.Unchanged, latest := Status.Unchanged })
     (by simp)⟩

theorem resolve_status_step_spec {selfw compat latest : ElaborateWorkspace}
    {opts : Options} {skip : List String} {item : QItem} {cache : StatusCache}
    {newItems : List QItem} {cache' : StatusCache}
    (h : resolve_status_step selfw compat latest opts skip item cache
      = some (newItems, cache')) :
    ∃ pkg, item.path.getLast? = some pkg ∧
      ((depthAllows opts.depth ((item.path.length : Int) - 1) = false ∧ newItems = []) ∨
       (depthAllows opts.depth ((item.path.length : Int) - 1) = true ∧
        ∃ deps, depKeys selfw pkg = some deps ∧
          newItems = (deps.filter
            (fun d => !(item.path.contains d) && !(skip.contains d.name))).map
            (fun d =>
              { path := item.path ++ [d]
                compat_pkg := childCursor compat item.compat_pkg d.name
                latest_pkg := childCursor latest item.latest_pkg d.name : QItem }))) := by
  unfold resolve_status_step at h
  cases hlast : item.path.getLast? with
  | none => rw [hlast] at h; simp at h
  | some pkg =>
    rw [hlast] at h
    refine ⟨pkg, rfl, ?_⟩
    by_cases hd : depthAllows opts.depth ((item.path.length : Int) - 1)
    · simp only [hd, if_true] at h
      cases hdk : depKeys selfw pkg with
      | none => rw [hdk] at h; simp at h
      | some deps =>
        rw [hdk] at h
        simp only [Option.some.injEq, Prod.mk.injEq] at h
        exact Or.inr ⟨hd, deps, rfl, h.1.symm⟩
    · simp only [hd, if_false, Bool.false_eq_true] at h
      simp only [Option.some.injEq, Prod.mk.injEq] at h
      exact Or.inl ⟨by simpa using hd, h.1.symm⟩

theorem depthAllows_some_iff (n d : Int) : depthAllows (some n) d = true ↔ d < n := by
  simp [depthAllows]

theorem resolve_status_aux_depth (selfw compat latest : ElaborateWorkspace)
    (opts : Options) (skip : List String) (N : Int) (hN : opts.depth = some N) :
    ∀ (fuel : Nat) (q : List QItem) (cache0 cache : StatusCache),
      (∀ it ∈ q, (it.path.length : Int) ≤ max (N + 1) 1) →
      (∀ e ∈ cache0, (e.1.length : Int) ≤ max (N + 1) 1) →
      resolve_status_aux selfw compat latest opts skip fuel q cache0 = some cache →
      ∀ e ∈ cache, (e.1.length : Int) ≤ max (N + 1) 1 := by
  intro fuel
  induction fuel with
  | zero =>
    intro q cache0 cache hq h0 hrun
    cases q with
    | nil =>
      simp only [resolve_status_aux, Option.some.injEq] at hrun
      exact fun e he => h0 e (hrun ▸ he)
    | cons it rest => simp [resolve_status_aux] at hrun
  | succ fuel ih =>
    intro q cache0 cache hq h0 hrun
    cases q with
    | nil =>
      simp only [resolve_status_aux, Option.some.injEq] at hrun
      exact fun e he => h0 e (hrun ▸ he)
    | cons it rest =>
      rw [resolve_status_aux] at hrun
      cases hstep : resolve_status_step selfw compat latest opts skip it cache0 with
      | none => rw [hstep] at hrun; simp at hrun
      | some pr =>
        obtain ⟨newItems, cache1⟩ := pr
        rw [hstep] at hrun
        obtain ⟨pkg, hlast, hc1⟩ := resolve_status_step_cache hstep
        obtain ⟨pkg', hlast', hbranch⟩ := resolve_status_step_spec hstep
        have hit := hq it (List.mem_cons_self it rest)
        refine ih (rest ++ newItems) cache1 cache ?_ ?_ hrun
        · intro it' hit'
          rcases List.mem_append.mp hit' with h | h
          · exact hq it' (List.mem_cons_of_mem it h)
          · rcases hbranch with ⟨_, hempty⟩ | ⟨hguard, deps, _, hnew⟩
            · rw [hempty] at h; simp at h
            · rw [hnew] at h
              rcases List.mem_map.mp h with ⟨d, _, hd⟩
              rw [← hd]
              simp only [List.length_append, List.length_cons, List.length_nil]
              rw [hN, depthAllows_some_iff] at hguard
              push_cast
              push_cast at hguard hit
              omega
        · intro e he
          rw [hc1] at he
          rcases List.mem_cons.mp he with h | h
          · rw [h]
            exact hit
          · exact h0 e h

/-- C5 (amended): when the depth bound is `some N`, every path stored in
the status cache has length at most `max (N+1) 1` — for `N ≥ 0` this is
the claimed `N+1`, but the root path (length 1) is stored before the
depth guard is consulted, so for a negative `N` the claimed bound `N+1`
fails (see the counterexample).  When depth is absent the guard passes
unconditionally (no depth pruning).  `--root-deps-only` and
`--ignore-external-rel` both force `depth = Some(1)` in `Options::from`,
the latter also forcing `root_deps_only` (src/cli.rs:125-133). -/
theorem claim_depth_obedience :
    (∀ d : Int, depthAllows none d = true) ∧
    (∀ (selfw compat latest : ElaborateWorkspace) (opts : Options) (N : Int)
       (root compat_root latest_root : PackageId) (skip : List String)
       (fuel : Nat) (cache : StatusCache),
      opts.depth = some N →
      resolve_status selfw compat latest opts root compat_root latest_root skip fuel
        = some cache →
      ∀ e ∈ cache, (e.1.length : Int) ≤ max (N + 1) 1) ∧
    (∀ m : ArgMatches, m.root_deps_only = true →
      (Options.fromMatches m).depth = some 1) ∧
    (∀ m : ArgMatches, m.ignore_external_rel = true →
      (Options.fromMatches m).depth = some 1 ∧
      (Options.fromMatches m).root_deps_only = true) := by
  refine ⟨fun d => rfl, ?_, ?_, ?_⟩
  · intro selfw compat latest opts N root compat_root latest_root skip fuel cache hN hrun
    refine resolve_status_aux_depth selfw compat latest opts skip N hN fuel _ [] cache
      ?_ (by intro e he; simp at he) hrun
    intro it hit
    simp only [List.mem_singleton] at hit
    rw [hit]
    simp only [List.length_cons, List.length_nil]
    have : (1 : Int) ≤ max (N + 1) 1 := le_max_right _ _
    push_cast
    omega
  · intro m hm
    unfold Options.fromMatches
    cases he : m.ignore_external_rel <;> simp [hm, he]
  · intro m he
    unfold Options.fromMatches
    cases hm : m.root_deps_only <;> simp [hm, he]

/-- Counterexample to C5 as stated: with the finite depth bound `N = -1`
(the `Option<i32>` field admits it and `Options::from` never validates
it), the root path of length 1 is still stored, and `1 > N + 1 = 0`. -/
theorem claim_depth_obedience_counterexample :
    resolve_status wsSingle wsSingle wsSingle
        { optsDefault with depth := some (-1) } pkgR pkgR pkgR [] 1
      = some [([pkgR], { compat := Status.Unchanged, latest := Status.Unchanged })] ∧
    ¬ ((([pkgR] : List PackageId).length : Int) ≤ (-1) + 1) :=
  ⟨by decide, by decide⟩

/-- Witness for the C5 theorem: the bound and the `Options::from`
overrides applied at concrete inputs. -/
theorem claim_depth_obedience_witness :
    (∀ e ∈ [([pkgR], { compat := Status.Unchanged, latest := Status.Unchanged : PkgStatus })],
      ((e.1.length : Int) ≤ max ((5 : Int) + 1) 1)) ∧
    (Options.fromMatches
      { format := Format.List, color := Color.Auto, features := [], ignore := [],
        exclude := [], manifest_path := none, quiet := false, verbose := 0,
        exit_code := none, packages := [], root := none, depth := none,
        root_deps_only := true, ignore_external_rel := false, workspace := false,
        aggressive := false, offline := false }).depth = some 1 :=
  ⟨claim_depth_obedience.2.1 wsSingle wsSingle wsSingle
      { optsDefault with depth := some 5 } 5 pkgR pkgR pkgR [] 2
      [([pkgR], { compat := Status.Unchanged, latest := Status.Unchanged })]
      (by decide) (by decide),
   claim_depth_obedience.2.2.1
      { format := Format.List, color := Color.Auto, features := [], ignore := [],
        exclude := [], manifest_path := none, quiet := false, verbose := 0,
        exit_code := none, packages := [], root := none, depth := none,
        root_deps_only := true, ignore_external_rel := false, workspace := false,
        aggressive := false, offline := false } rfl⟩

theorem nodup_length_le_of_mem_list {p V : List PackageId}
    (hnd : p.Nodup) (hsub : ∀ x ∈ p, x ∈ V) : p.length ≤ V.length := by
  have h1 : p.toFinset.card = p.length := List.toFinset_card_of_nodup hnd
  have h2 : p.toFinset ⊆ V.toFinset := by
    intro x hx
    rw [List.mem_toFinset] at hx ⊢
    exact hsub x hx
  calc p.length = p.toFinset.card := h1.symm
    _ ≤ V.toFinset.card := Finset.card_le_card h2
    _ ≤ V.length := V.toFinset_card_le

theorem foldr_max_ge_of_mem {l : List Nat} {x : Nat} (h : x ∈ l) :
    x ≤ l.foldr max 0 := by
  induction l with
  | nil => simp at h
  | cons a l ih =>
    rcases List.mem_cons.mp h with h | h
    · simp [h, le_max_iff]
    · simp only [List.foldr_cons, le_max_iff]
      exact Or.inr (ih h)

theorem outDegreeBound_spec {selfw : ElaborateWorkspace} {V : List PackageId}
    {v : PackageId} {deps : List PackageId} (hv : v ∈ V)
    (hdk : depKeys selfw v = some deps) :
    deps.length ≤ outDegreeBound selfw V := by
  unfold outDegreeBound
  have : deps.length ∈ V.map (fun v => match depKeys selfw v with
      | some l => l.length
      | none => 0) := by
    apply List.mem_map.mpr
    exact ⟨v, hv, by rw [hdk]⟩
  exact foldr_max_ge_of_mem this

theorem pathWeight_pos (D B l : Nat) : 1 ≤ pathWeight D B l :=
  Nat.one_le_iff_ne_zero.mpr (pow_ne_zero _ (Nat.succ_ne_zero D))

theorem queueWeight_append (D B : Nat) (q1 q2 : List QItem) :
    queueWeight D B (q1 ++ q2) = queueWeight D B q1 + queueWeight D B q2 := by
  unfold queueWeight
  rw [List.map_append, List.sum_append]

theorem queueWeight_cons (D B : Nat) (it : QItem) (q : List QItem) :
    queueWeight D B (it :: q) = pathWeight D B it.path.length + queueWeight D B q := by
  unfold queueWeight
  rw [List.map_cons, List.sum_cons]

theorem resolve_status_step_total {selfw compat latest : ElaborateWorkspace}
    {opts : Options} {skip : List String} {item : QItem} {cache : StatusCache}
    {V : List PackageId}
    (hne : item.path ≠ []) (hV : ∀ x ∈ item.path, x ∈ V)
    (htotal : ∀ v ∈ V, depKeys selfw v ≠ none) :
    resolve_status_step selfw compat latest opts skip item cache ≠ none := by
  unfold resolve_status_step
  cases hlast : item.path.getLast? with
  | none => exact absurd (List.getLast?_eq_none_iff.mp hlast) hne
  | some pkg =>
    have hpkg : pkg ∈ V := hV pkg (List.mem_of_getLast?_eq_some hlast)
    by_cases hd : depthAllows opts.depth ((item.path.length : Int) - 1)
    · simp only [hd, if_true]
      cases hdk : depKeys selfw pkg with
      | none => exact absurd hdk (htotal pkg hpkg)
      | some deps => simp
    · simp [hd]

theorem resolve_status_aux_terminates (selfw compat latest : ElaborateWorkspace)
    (opts : Options) (skip : List String) (V : List PackageId)
    (hclosed : ∀ v ∈ V, ∀ deps, depKeys selfw v = some deps → ∀ d ∈ deps, d ∈ V)
    (htotal : ∀ v ∈ V, depKeys selfw v ≠ none) :
    ∀ (n : Nat) (q : List QItem) (cache0 : StatusCache),
      queueWeight (outDegreeBound selfw V) V.length q ≤ n →
      QInv V q →
      (∀ e ∈ cache0, e.1.Nodup) →
      ∃ cache,
        resolve_status_aux selfw compat latest opts skip n q cache0 = some cache ∧
        ∀ e ∈ cache, e.1.Nodup := by
  intro n
  induction n with
  | zero =>
    intro q cache0 hw hinv h0
    cases q with
    | nil => exact ⟨cache0, rfl, h0⟩
    | cons it rest =>
      exfalso
      have hpos := pathWeight_pos (outDegreeBound selfw V) V.length it.path.length
      rw [queueWeight_cons] at hw
      omega
  | succ n ih =>
    intro q cache0 hw hinv h0
    cases q with
    | nil => exact ⟨cache0, rfl, h0⟩
    | cons it rest =>
      obtain ⟨hne, hnd, hsub⟩ := hinv it (List.mem_cons_self it rest)
      cases hstep : resolve_status_step selfw compat latest opts skip it cache0 with
      | none => exact absurd hstep (resolve_status_step_total hne hsub htotal)
      | some pr =>
        obtain ⟨newItems, cache1⟩ := pr
        obtain ⟨pkg, hlast, hc1⟩ := resolve_status_step_cache hstep
        obtain ⟨pkg', hlast', hbranch⟩ := resolve_status_step_spec hstep
        rw [hlast] at hlast'
        injection hlast' with hpp
        subst hpp
        have hpkgV : pkg ∈ V := hsub pkg (List.mem_of_getLast?_eq_some hlast)
        have hlenB : it.path.length ≤ V.length := nodup_length_le_of_mem_list hnd hsub
        have h0' : ∀ e ∈ cache1, e.1.Nodup := by
          intro e he
          rw [hc1] at he
          rcases List.mem_cons.mp he with h | h
          · rw [h]; exact hnd
          · exact h0 e h
        have hrest : QInv V rest := fun it' h => hinv it' (List.mem_cons_of_mem it h)
        rw [resolve_status_aux, hstep]
        rcases hbranch with ⟨_, hempty⟩ | ⟨hguard, deps, hdk, hnew⟩
        · subst hempty
          rw [queueWeight_cons] at hw
          have hpos := pathWeight_pos (outDegreeBound selfw V) V.length it.path.length
          refine ih (rest ++ []) cache1 ?_ ?_ h0'
          · rw [List.append_nil]
            omega
          · rw [List.append_nil]
            exact hrest
        · -- each new item's path extends it.path by one fresh vertex
          have hNewShape : ∀ it' ∈ newItems, ∃ d, d ∈ deps ∧ d ∉ it.path ∧
              it'.path = it.path ++ [d] := by
            intro it' hit'
            rw [hnew] at hit'
            rcases List.mem_map.mp hit' with ⟨d, hdmem, hde⟩
            rw [List.mem_filter] at hdmem
            refine ⟨d, hdmem.1, ?_, by rw [← hde]⟩
            have := hdmem.2
            simp only [Bool.and_eq_true, Bool.not_eq_true'] at this
            intro hcontra
            have hc := this.1
            have htrue : it.path.elem d = true := List.elem_iff.mpr hcontra
            unfold List.contains at hc
            rw [htrue] at hc
            simp at hc
          have hQInvNew : QInv V (rest ++ newItems) := by
            intro it' hit'
            rcases List.mem_append.mp hit' with h | h
            · exact hrest it' h
            · obtain ⟨d, hddeps, hdfresh, hpath⟩ := hNewShape it' h
              have hdV : d ∈ V := hclosed pkg hpkgV deps hdk d hddeps
              refine ⟨by simp [hpath], ?_, ?_⟩
              · rw [hpath, List.nodup_append]
                exact ⟨hnd, List.nodup_singleton d, by
                  intro x hx hxd
                  rw [List.mem_singleton] at hxd
                  exact hdfresh (hxd ▸ hx)⟩
              · intro x hx
                rw [hpath] at hx
                rcases List.mem_append.mp hx with h | h
                · exact hsub x h
                · rw [List.mem_singleton] at h
                  exact h ▸ hdV
          have hcount : newItems.length ≤ outDegreeBound selfw V := by
            rw [hnew]
            calc ((deps.filter _).map _).length
                = (deps.filter _).length := List.length_map _ _
              _ ≤ deps.length := List.length_filter_le _ _
              _ ≤ outDegreeBound selfw V := outDegreeBound_spec hpkgV hdk
          have hwNew : queueWeight (outDegreeBound selfw V) V.length newItems
              = newItems.length *
                pathWeight (outDegreeBound selfw V) V.length (it.path.length + 1) := by
            unfold queueWeight
            have hrep : newItems.map (fun it' =>
                pathWeight (outDegreeBound selfw V) V.length it'.path.length)
                = List.replicate newItems.length
                  (pathWeight (outDegreeBound selfw V) V.length (it.path.length + 1)) := by
              rw [List.eq_replicate_iff]
              constructor
              · rw [List.length_map]
              · intro b hb
                rcases List.mem_map.mp hb with ⟨it', hit', hbe⟩
                obtain ⟨d, _, _, hpath⟩ := hNewShape it' hit'
                rw [← hbe, hpath]
                simp
            rw [hrep, List.sum_replicate, smul_eq_mul]
          have hsplit : pathWeight (outDegreeBound selfw V) V.length it.path.length
              = (outDegreeBound selfw V + 1) *
                pathWeight (outDegreeBound selfw V) V.length (it.path.length + 1) := by
            unfold pathWeight
            have he1 : V.length + 1 - it.path.length = (V.length - it.path.length) + 1 := by
              omega
            have he2 : V.length + 1 - (it.path.length + 1) = V.length - it.path.length := by
              omega
            rw [he1, he2, pow_succ]
            ring
          refine ih (rest ++ newItems) cache1 ?_ hQInvNew h0'
          rw [queueWeight_append]
          rw [queueWeight_cons] at hw
          set D := outDegreeBound selfw V
          set w := pathWeight D V.length (it.path.length + 1) with hwdef
          have hwpos : 1 ≤ w := pathWeight_pos _ _ _
          have hmul : newItems.length * w ≤ D * w :=
            Nat.mul_le_mul_right w hcount
          have hDw : D * w + w = (D + 1) * w := by ring
          omega

/-- C6: for every dependency graph — cycles included — whose vertex list
`V` is closed under the adjacency map and total on it (the construction
invariant of the elaborated workspace), the breadth-first traversal of
`resolve_status` terminates: fuel `(D+1)^|V|` (with `D` a bound on the
out-degree) already drains the queue, and no `PackageId` appears twice in
any stored path — the enqueue filter `!path.contains(dep)` rejects a
child already on the current path
(src/cargo_ops/elaborate_workspace.rs:254-276). -/
theorem claim_cycle_termination :
    ∀ (selfw compat latest : ElaborateWorkspace) (opts : Options) (skip : List String)
      (V : List PackageId) (root compat_root latest_root : PackageId),
      root ∈ V →
      (∀ v ∈ V, (depKeys selfw v).isSome = true) →
      (∀ v ∈ V, ∀ d ∈ (depKeys selfw v).getD [], d ∈ V) →
      ∃ cache,
        resolve_status selfw compat latest opts root compat_root latest_root skip
          ((outDegreeBound selfw V + 1) ^ V.length) = some cache ∧
        ∀ e ∈ cache, e.1.Nodup := by
  intro selfw compat latest opts skip V root compat_root latest_root hroot hsome hclosed
  have htotal : ∀ v ∈ V, depKeys selfw v ≠ none := by
    intro v hv hcontra
    have := hsome v hv
    rw [hcontra] at this
    simp at this
  have hclosed' : ∀ v ∈ V, ∀ deps, depKeys selfw v = some deps → ∀ d ∈ deps, d ∈ V := by
    intro v hv deps hdeps d hd
    have := hclosed v hv d
    rw [hdeps] at this
    exact this (by simpa using hd)
  unfold resolve_status
  refine resolve_status_aux_terminates selfw compat latest opts skip V hclosed' htotal
    _ _ [] ?_ ?_ (by intro e he; simp at he)
  · rw [queueWeight_cons]
    unfold queueWeight pathWeight
    simp only [List.map_nil, List.sum_nil, List.length_cons, List.length_nil]
    have : V.length + 1 - (0 + 1) = V.length := by omega
    rw [this]
    omega
  · intro it hit
    rw [List.mem_singleton] at hit
    rw [hit]
    exact ⟨by simp, List.nodup_singleton root, by
      intro x hx
      rw [List.mem_singleton] at hx
      exact hx ▸ hroot⟩

/-- Witness for the C6 theorem: a complete terminating run on the cyclic
graph `root -> a -> b -> a`, with duplicate-free stored paths. -/
theorem claim_cycle_termination_witness :
    (resolve_status wsCycle wsCycle wsCycle optsDefault pkgR pkgR pkgR []
        ((outDegreeBound wsCycle [pkgR, pkgA, pkgB] + 1) ^
          ([pkgR, pkgA, pkgB] : List PackageId).length)).isSome = true ∧
    ((resolve_status wsCycle wsCycle wsCycle optsDefault pkgR pkgR pkgR []
        ((outDegreeBound wsCycle [pkgR, pkgA, pkgB] + 1) ^
          ([pkgR, pkgA, pkgB] : List PackageId).length)).getD []).all
      (fun e => decide e.1.Nodup) = true := by
  obtain ⟨cache, hc, hnodup⟩ := claim_cycle_termination wsCycle wsCycle wsCycle
    optsDefault [] [pkgR, pkgA, pkgB] pkgR pkgR pkgR
    (by decide) (by decide) (by decide)
  constructor
  · rw [hc]
    rfl
  · rw [hc]
    simp only [Option.getD_some]
    rw [List.all_eq_true]
    intro e he
    exact decide_eq_true (hnodup e he)

theorem Version.le_refl (v : Version) : Version.le v v = true := by
  unfold Version.le
  simp

theorem sortDesc_le_total (a b : Summary) :
    (Version.le b.version a.version || Version.le a.version b.version) = true := by
  unfold Version.le
  rcases le_total a.version.key b.version.key with h | h <;> simp [h]

theorem sortDesc_le_trans (a b c : Summary)
    (hab : Version.le b.version a.version = true)
    (hbc : Version.le c.version b.version = true) :
    Version.le c.version a.version = true := by
  unfold Version.le at hab hbc ⊢
  simp only [decide_eq_true_eq] at hab hbc ⊢
  exact le_trans hbc hab

theorem findFirstM_eq_find? {α : Type} (p : α → Option Bool) (q : α → Bool) :
    ∀ l : List α, (∀ x ∈ l, p x = some (q x)) → findFirstM p l = some (l.find? q) := by
  intro l
  induction l with
  | nil => intro _; rfl
  | cons a tl ih =>
    intro h
    have ha := h a (List.mem_cons_self a tl)
    unfold findFirstM
    rw [ha]
    cases hq : q a with
    | true => simp [List.find?, hq]
    | false =>
      simp only [List.find?, hq]
      exact ih (fun x hx => h x (List.mem_cons_of_mem a hx))

theorem find?_sorted_desc_max {q : Summary → Bool} :
    ∀ {l : List Summary} {s : Summary},
      l.Pairwise (fun a b => Version.le b.version a.version = true) →
      l.find? q = some s →
      q s = true ∧ s ∈ l ∧ ∀ t ∈ l, q t = true → Version.le t.version s.version = true := by
  intro l
  induction l with
  | nil => intro s _ hf; simp [List.find?] at hf
  | cons a tl ih =>
    intro s hpair hf
    rw [List.pairwise_cons] at hpair
    cases hq : q a with
    | true =>
      rw [List.find?_cons_of_pos _ hq] at hf
      injection hf with hf
      subst hf
      refine ⟨hq, List.mem_cons_self _ _, ?_⟩
      intro t ht _
      rcases List.mem_cons.mp ht with h | h
      · rw [h]
        exact Version.le_refl _
      · exact hpair.1 t h
    | false =>
      rw [List.find?_cons_of_neg _ (by simp [hq])] at hf
      obtain ⟨h1, h2, h3⟩ := ih hpair.2 hf
      refine ⟨h1, List.mem_cons_of_mem a h2, ?_⟩
      intro t ht hqt
      rcases List.mem_cons.mp ht with h | h
      · rw [h] at hqt
        rw [hqt] at hq
        cases hq
      · exact h3 t h hqt

theorem head_sorted_desc_max {l : List Summary} {top : Summary}
    (hpair : l.Pairwise (fun a b => Version.le b.version a.version = true))
    (hhead : l.head? = some top) :
    top ∈ l ∧ ∀ t ∈ l, Version.le t.version top.version = true := by
  cases l with
  | nil => simp at hhead
  | cons a tl =>
    rw [List.head?_cons] at hhead
    injection hhead with hhead
    subst hhead
    rw [List.pairwise_cons] at hpair
    refine ⟨List.mem_cons_self _ _, ?_⟩
    intro t ht
    rcases List.mem_cons.mp ht with h | h
    · rw [h]
      exact Version.le_refl _
    · exact hpair.1 t h

theorem find_update_select_spec {Req : Type} (reqMatches : Req → Version → Bool)
    (opts : Options) (version : Version) (reqp : Option (String × Req))
    (find_latest : Bool) (qr : List Summary) (hne : qr ≠ [])
    (hdef : ∀ s ∈ qr, findUpdatePred reqMatches opts version reqp find_latest s
      = some (survives reqMatches opts version reqp find_latest s)) :
    ∃ s warned,
      find_update_select (findUpdatePred reqMatches opts version reqp find_latest)
          (qr.mergeSort (fun a b => Version.le b.version a.version))
        = some (Except.ok (s, warned)) ∧ s ∈ qr ∧
      (warned = false →
        survives reqMatches opts version reqp find_latest s = true ∧
        ∀ t ∈ qr, survives reqMatches opts version reqp find_latest t = true →
          Version.le t.version s.version = true) ∧
      (warned = true →
        (∀ t ∈ qr, survives reqMatches opts version reqp find_latest t = false) ∧
        ∀ t ∈ qr, Version.le t.version s.version = true) := by
  set q : Summary → Bool := survives reqMatches opts version reqp find_latest with hq
  set sorted := qr.mergeSort (fun a b => Version.le b.version a.version) with hsorted
  have hmem : ∀ x : Summary, x ∈ sorted ↔ x ∈ qr := fun x => List.mem_mergeSort
  have hpair : sorted.Pairwise (fun a b => Version.le b.version a.version = true) := by
    have := @List.sorted_mergeSort Summary
      (fun a b => Version.le b.version a.version)
      (fun a b c hab hbc => sortDesc_le_trans a b c hab hbc)
      (fun a b => sortDesc_le_total a b) qr
    exact this
  have hdef' : ∀ s ∈ sorted, findUpdatePred reqMatches opts version reqp find_latest s
      = some (q s) := fun s hs => hdef s ((hmem s).mp hs)
  unfold find_update_select
  rw [findFirstM_eq_find? _ q sorted hdef']
  cases hfind : sorted.find? q with
  | some s =>
    obtain ⟨hqs, hsmem, hmax⟩ := find?_sorted_desc_max hpair hfind
    refine ⟨s, false, rfl, (hmem s).mp hsmem, ?_, by intro h; cases h⟩
    intro _
    exact ⟨hqs, fun t ht hqt => hmax t ((hmem t).mpr ht) hqt⟩
  | none =>
    have hnone : ∀ t ∈ sorted, ¬ q t = true := List.find?_eq_none.mp hfind
    cases hhead : sorted.head? with
    | none =>
      exfalso
      rw [List.head?_eq_none_iff] at hhead
      have : qr.length = 0 := by
        have := congrArg List.length hhead
        simpa [hsorted] using this
      exact hne (List.eq_nil_of_length_eq_zero this)
    | some top =>
      obtain ⟨htopmem, htopmax⟩ := head_sorted_desc_max hpair hhead
      refine ⟨top, true, rfl, (hmem top).mp htopmem, ?_, ?_⟩
      · intro h
        cases h
      · intro _
        refine ⟨?_, fun t ht => htopmax t ((hmem t).mpr ht)⟩
        intro t ht
        have := hnone t ((hmem t).mpr ht)
        simpa using this

/-- C7: `find_update` sorts the registry's candidates by version
descending and returns the highest candidate surviving the filter (not
strictly below the resolved version; accepted unconditionally without a
requirement; channel-checked in latest mode unless `aggressive`;
requirement-matched otherwise); when no candidate survives it returns the
overall highest candidate with a warning instead of failing, for every
non-empty query result (src/cargo_ops/temp_project.rs:381-455).  The
`semver::VersionReq` oracle is abstract; the hypotheses rule out the
panics (requirement parse handled as the reported `Err`, and
`valid_latest_version` defined on the candidates). -/
theorem claim_find_update_fallback :
    ∀ (Req : Type) (parseReq : String → Option Req) (reqMatches : Req → Version → Bool)
      (opts : Options) (version : Version) (qr : List Summary)
      (requirement : Option String) (find_latest : Bool),
      qr ≠ [] →
      (∀ r, requirement = some r → (parseReq r).isSome = true) →
      (∀ r s, requirement = some r → s ∈ qr → find_latest = true →
        opts.aggressive = false → (valid_latest_version r s.version).isSome = true) →
      ∃ s warned,
        find_update parseReq reqMatches opts version qr requirement find_latest
          = some (Except.ok (s, warned)) ∧
        s ∈ qr ∧
        (warned = false →
          survives reqMatches opts version
            (requirement.bind (fun r => (parseReq r).map (fun vr => (r, vr))))
            find_latest s = true ∧
          ∀ t ∈ qr, survives reqMatches opts version
            (requirement.bind (fun r => (parseReq r).map (fun vr => (r, vr))))
            find_latest t = true → Version.le t.version s.version = true) ∧
        (warned = true →
          (∀ t ∈ qr, survives reqMatches opts version
            (requirement.bind (fun r => (parseReq r).map (fun vr => (r, vr))))
            find_latest t = false) ∧
          ∀ t ∈ qr, Version.le t.version s.version = true) := by
  intro Req parseReq reqMatches opts version qr requirement find_latest hne hparse hvlv
  cases requirement with
  | none =>
    have hdef : ∀ s ∈ qr, findUpdatePred reqMatches opts version none find_latest s
        = some (survives reqMatches opts version none find_latest s) := by
      intro s _
      cases hlt : Version.lt s.version version <;>
        simp [findUpdatePred, survives, hlt]
    obtain ⟨s, warned, hsel, hmem, hw1, hw2⟩ :=
      find_update_select_spec reqMatches opts version none find_latest qr hne hdef
    exact ⟨s, warned, by simpa [find_update] using hsel, hmem, hw1, hw2⟩
  | some r =>
    have hr := hparse r rfl
    cases hpr : parseReq r with
    | none => rw [hpr] at hr; simp at hr
    | some vr =>
      have hdef : ∀ s ∈ qr,
          findUpdatePred reqMatches opts version (some (r, vr)) find_latest s
          = some (survives reqMatches opts version (some (r, vr)) find_latest s) := by
        intro s hs
        cases hlt : Version.lt s.version version with
        | true => simp [findUpdatePred, survives, hlt]
        | false =>
          cases hfl : find_latest with
          | false => simp [findUpdatePred, survives, hlt, hfl]
          | true =>
            cases hag : opts.aggressive with
            | true => simp [findUpdatePred, survives, hlt, hfl, hag]
            | false =>
              have := hvlv r s rfl hs hfl hag
              cases hv : valid_latest_version r s.version with
              | none => rw [hv] at this; simp at this
              | some b =>
                simp [findUpdatePred, survives, hlt, hfl, hag, hv]
      obtain ⟨s, warned, hsel, hmem, hw1, hw2⟩ :=
        find_update_select_spec reqMatches opts version (some (r, vr)) find_latest
          qr hne hdef
      refine ⟨s, warned, ?_, hmem, by simpa [hpr] using hw1, by simpa [hpr] using hw2⟩
      simpa [find_update, hpr] using hsel

/-- Witness for the C7 theorem: a complete selection on a one-candidate
query result with no requirement (the trivial oracle stands in for
`semver::VersionReq`). -/
theorem claim_find_update_fallback_witness :
    (find_update (fun _ : String => some ()) (fun (_ : Unit) (_ : Version) => true)
        optsDefault ver1
        [{ version := ver2, features := [], optional_deps := [] }] none false).isSome
      = true := by
  obtain ⟨s, warned, heq, -, -, -⟩ := claim_find_update_fallback Unit
    (fun _ => some ()) (fun _ _ => true) optsDefault ver1
    [{ version := ver2, features := [], optional_deps := [] }] none false
    (by simp) (by intro r h; cases h) (by intro r s h; cases h)
  rw [heq]
  rfl

/-- C1 (the code at the failing input): with `exclude = ["a"]`, the
`continue` in `update_version_and_feature`
(src/cargo_ops/temp_project.rs:515-517) skips the entry WITHOUT removing
it, so the excluded dependency is still present, unchanged, in the
rewritten sandbox manifest — although the comment right above it
(lines 510-514) says the dependency is excluded "by not writing it to the
temp project's manifest", and the spec says it is removed entirely. -/
theorem claim_exclude_removed_failing :
    update_version_and_feature { optsDefault with exclude := ["a"] }
        (fun _ _ _ => some { version := ver2, features := [], optional_deps := [] })
        none true [("a", TomlValue.str "1.0")]
      = some [("a", TomlValue.str "1.0")] ∧
    (tget [("a", TomlValue.str "1.0")] "a").isSome = true :=
  ⟨rfl, rfl⟩

/-- Counterexample to C3 as stated: in latest mode, a failed query for
the table-form dependency `aa` makes `update_version_and_feature` return
`Ok(())` immediately (src/cargo_ops/temp_project.rs:593-599), so the
later string-form dependency `bb` of the same table is left unprocessed
(first conjunct: the whole table is returned unchanged), even though a
run on `bb` alone rewrites it to the queried version 9.9.9 (second
conjunct). -/
theorem claim_registry_failure_counterexample :
    update_version_and_feature optsDefault
        (fun name _ _ => if name = "aa" then none
          else some { version := { major := 9, minor := 9, patch := 9,
                                   pre := "", build := "" },
                      features := [], optional_deps := [] })
        none true
        [("aa", TomlValue.table [("version", TomlValue.str "1.0")]),
         ("bb", TomlValue.str "1.0")]
      = some [("aa", TomlValue.table [("version", TomlValue.str "1.0")]),
              ("bb", TomlValue.str "1.0")] ∧
    update_version_and_feature optsDefault
        (fun name _ _ => if name = "aa" then none
          else some { version := { major := 9, minor := 9, patch := 9,
                                   pre := "", build := "" },
                      features := [], optional_deps := [] })
        none true
        [("bb", TomlValue.str "1.0")]
      = some [("bb", TomlValue.str "9.9.9")] :=
  ⟨rfl, rfl⟩

theorem featLoop_total (ft : Table) (name : String)
    (hwf : ∀ p ∈ ft, (match p.2 with
      | TomlValue.array _ => true
      | _ => false) = true) :
    ∀ (stack visited : List String), featLoop ft name stack visited ≠ none := by
  intro stack visited
  induction stack, visited using featLoop.induct ft name with
  | case1 visited => simp [featLoop]
  | case2 rest visited =>
    rw [featLoop]
    simp
  | case3 f rest visited hname hvis ih =>
    rw [featLoop, if_neg hname, dif_pos hvis]
    exact ih
  | case4 f rest visited hname hvis specs hft ih =>
    rw [featLoop, if_neg hname, dif_neg hvis, hft]
    exact ih
  | case5 f rest visited hname hvis val hnotarr hft =>
    exfalso
    unfold tget at hft
    cases hf : ft.find? (fun p => p.1 = f) with
    | none => rw [hf] at hft; simp at hft
    | some e =>
      rw [hf] at hft
      simp only [Option.map_some', Option.some.injEq] at hft
      have hemem := List.mem_of_find?_eq_some hf
      have hv := hwf e hemem
      rw [hft] at hv
      cases hval : val with
      | array vs => exact hnotarr vs hval
      | str s => rw [hval] at hv; simp at hv
      | boolean b => rw [hval] at hv; simp at hv
      | table t => rw [hval] at hv; simp at hv
      | other => rw [hval] at hv; simp at hv
  | case6 f rest visited hname hvis hft ih =>
    rw [featLoop, if_neg hname, dif_neg hvis, hft]
    exact ih

theorem feature_includes_total (opts : Options) (name : String) (optional : Bool)
    (features : Option TomlValue) (hwf : wfFeatures features = true) :
    feature_includes opts name optional features ≠ none := by
  unfold feature_includes
  by_cases h1 : opts.all_features = true
  · simp [h1]
  · simp only [h1, Bool.false_eq_true, if_false]
    by_cases h2 : (!optional && opts.features.contains "default") = true
    · have h2' : optional = false ∧ "default" ∈ opts.features := by
        simpa using h2
      simp [h2']
    · simp only [h2, Bool.false_eq_true, if_false]
      cases features with
      | none => simp
      | some v =>
        cases v with
        | table ft =>
          apply featLoop_total
          unfold wfFeatures at hwf
          rw [List.all_eq_true] at hwf
          exact hwf
        | str s => simp
        | boolean b => simp
        | array vs => simp
        | other => simp

theorem tget_tinsert (d : Table) (k k' : String) (v : TomlValue) :
    tget (tinsert d k v) k' = if k' = k then some v else tget d k' := by
  induction d with
  | nil =>
    by_cases h : k = k'
    · subst h
      simp [tinsert, tget, List.find?]
    · have h' : ¬ k' = k := fun hc => h hc.symm
      simp [tinsert, tget, List.find?, h, h']
  | cons e d ih =>
    obtain ⟨k0, v0⟩ := e
    by_cases h0 : k0 = k
    · subst h0
      by_cases h : k0 = k'
      · subst h
        simp [tinsert, tget, List.find?]
      · have h' : ¬ k' = k0 := fun hc => h hc.symm
        simp [tinsert, tget, List.find?, h, h']
    · by_cases h : k0 = k'
      · subst h
        have h' : ¬ k0 = k := h0
        have h'' : ¬ (k0 = k) := h0
        simp only [tinsert, if_neg h0]
        have hfalse : (k0 = k) = False := by simp [h0]
        simp [tget, List.find?, h0, fun hc => h0 hc]
      · have h' : ¬ k' = k0 := fun hc => h hc.symm
        simp only [tinsert, if_neg h0]
        simp only [tget, List.find?] at ih ⊢
        have hd : (decide (k0 = k')) = false := by simpa using h
        rw [hd]
        rw [ih]

theorem wfDepValue_of_tget {deps : Table} {k : String} {v : TomlValue}
    (hwf : wfDeps deps = true) (hget : tget deps k = some v) : wfDepValue v = true := by
  unfold tget at hget
  cases hf : deps.find? (fun p => p.1 = k) with
  | none => rw [hf] at hget; simp at hget
  | some e =>
    rw [hf] at hget
    simp only [Option.map_some', Option.some.injEq] at hget
    have hmem := List.mem_of_find?_eq_some hf
    unfold wfDeps at hwf
    rw [List.all_eq_true] at hwf
    have := hwf e hmem
    exact hget ▸ this

theorem wfDeps_tinsert {deps : Table} {k : String} {v : TomlValue}
    (hwf : wfDeps deps = true) (hv : wfDepValue v = true) :
    wfDeps (tinsert deps k v) = true := by
  induction deps with
  | nil => simp [tinsert, wfDeps, hv]
  | cons e d ih =>
    obtain ⟨k0, v0⟩ := e
    unfold wfDeps at hwf
    rw [List.all_eq_true] at hwf
    have hv0 : wfDepValue v0 = true := hwf (k0, v0) (List.mem_cons_self _ _)
    have hd : wfDeps d = true := by
      unfold wfDeps
      rw [List.all_eq_true]
      exact fun p hp => hwf p (List.mem_cons_of_mem _ hp)
    by_cases h0 : k0 = k
    · subst h0
      simp only [tinsert, if_pos rfl]
      unfold wfDeps
      rw [List.all_eq_true]
      intro p hp
      rcases List.mem_cons.mp hp with h | h
      · rw [h]
        exact hv
      · unfold wfDeps at hd
        rw [List.all_eq_true] at hd
        exact hd p h
    · simp only [tinsert, if_neg h0]
      unfold wfDeps
      rw [List.all_eq_true]
      intro p hp
      rcases List.mem_cons.mp hp with h | h
      · rw [h]
        exact hv0
      · have := ih hd
        unfold wfDeps at this
        rw [List.all_eq_true] at this
        exact this p h

theorem uvafTableArm_spec {opts : Options} {fu : FindUpdateFn}
    {features : Option TomlValue} {vtl : Bool} {dep_key : String} {t : Table}
    {orig_name : String} {deps : Table}
    (hwfv : wfDepValue (TomlValue.table t) = true)
    (hwff : wfFeatures features = true)
    (hwfd : wfDeps deps = true) :
    uvafTableArm opts fu features vtl dep_key t orig_name deps = some (Sum.inl deps) ∨
    (∃ d', uvafTableArm opts fu features vtl dep_key t orig_name deps
        = some (Sum.inr d') ∧
      wfDeps d' = true ∧
      ∀ k', (tget deps k').isSome = true → (tget d' k').isSome = true) := by
  have hABC : (((match tget t "package" with
      | some (TomlValue.str _) => true
      | some _ => false
      | none => true)
      && (match tget t "version" with
          | some (TomlValue.str _) => true
          | some _ => false
          | none => true))
      && (match tget t "features" with
          | some (TomlValue.array vs) =>
            vs.all (fun v => match v with | TomlValue.str _ => true | _ => false)
          | some _ => false
          | none => true)) = true := hwfv
  rw [Bool.and_eq_true, Bool.and_eq_true] at hABC
  obtain ⟨⟨hA, hB⟩, hC⟩ := hABC
  unfold uvafTableArm
  by_cases hgate : (!(vtl || (tget t "features").isSome)) = true
  · rw [if_pos hgate]
    exact Or.inr ⟨deps, rfl, hwfd, fun k' h => h⟩
  · rw [if_neg hgate]
    dsimp only []
    cases hfi : feature_includes opts dep_key
        (match tget t "optional" with
         | some (TomlValue.boolean b) => b
         | _ => false) features with
    | none => exact absurd hfi (feature_includes_total opts dep_key _ features hwff)
    | some b =>
      cases b with
      | false => exact Or.inr ⟨deps, rfl, hwfd, fun k' h => h⟩
      | true =>
        have hreq : ∃ req, (match tget t "version" with
            | some (TomlValue.str r) => some (some r)
            | some _ => none
            | none => some none : Option (Option String)) = some req := by
          cases hver : tget t "version" with
          | none => exact ⟨none, rfl⟩
          | some v =>
            rw [hver] at hB
            cases v with
            | str r => exact ⟨some r, rfl⟩
            | boolean b => simp at hB
            | array vs => simp at hB
            | table tt => simp at hB
            | other => simp at hB
        obtain ⟨req, hreqeq⟩ := hreq
        rw [hreqeq]
        simp only []
        cases hfu : fu (if orig_name = "" then dep_key else orig_name) req vtl with
        | none => exact Or.inl rfl
        | some summary =>
          simp only []
          by_cases hc : (vtl && (tget t "version").isSome) = true
          · rw [if_pos hc]
            have htt : tget (tinsert t "version" (TomlValue.str summary.version.str))
                "features" = tget t "features" := by
              rw [tget_tinsert]
              simp
            have htpk : tget (tinsert t "version" (TomlValue.str summary.version.str))
                "package" = tget t "package" := by
              rw [tget_tinsert]
              simp
            have htv : tget (tinsert t "version" (TomlValue.str summary.version.str))
                "version" = some (TomlValue.str summary.version.str) := by
              rw [tget_tinsert]
              simp
            rw [htt]
            cases hfeat : tget t "features" with
            | none =>
              refine Or.inr ⟨_, rfl, ?_, ?_⟩
              · refine wfDeps_tinsert hwfd ?_
                simp only [wfDepValue, Bool.and_eq_true]
                exact ⟨⟨by rw [htpk]; exact hA, by rw [htv]⟩, by rw [htt, hfeat]⟩
              · intro k' h
                rw [tget_tinsert]
                by_cases hk : k' = dep_key <;> simp [hk, h]
            | some fv =>
              rw [hfeat] at hC
              cases fv with
              | array vs =>
                simp only []
                split
                · refine Or.inr ⟨_, rfl, ?_, ?_⟩
                  · refine wfDeps_tinsert hwfd ?_
                    simp only [wfDepValue, Bool.and_eq_true]
                    refine ⟨⟨?_, ?_⟩, ?_⟩
                    · rw [tget_tinsert]
                      simp only [if_neg (by decide : ¬ "package" = "features")]
                      rw [htpk]
                      exact hA
                    · rw [tget_tinsert]
                      simp only [if_neg (by decide : ¬ "version" = "features")]
                      rw [htv]
                    · rw [tget_tinsert]
                      simp only [eq_self_iff_true, if_true]
                      rw [List.all_eq_true]
                      intro f hf
                      have hf' := List.mem_filter.mp hf
                      have hp := hf'.2
                      cases f <;> simp_all
                  · intro k' h
                    rw [tget_tinsert]
                    by_cases hk : k' = dep_key <;> simp [hk, h]
                · exfalso
                  rename_i hcond
                  apply hcond
                  rw [List.all_eq_true] at hC ⊢
                  intro f hf
                  have := hC f hf
                  cases f <;> simp_all
              | str s => simp at hC
              | boolean b => simp at hC
              | table tt => simp at hC
              | other => simp at hC
          · rw [if_neg hc]
            cases hfeat : tget t "features" with
            | none =>
              refine Or.inr ⟨_, rfl, ?_, ?_⟩
              · refine wfDeps_tinsert hwfd ?_
                simp only [wfDepValue, Bool.and_eq_true]
                exact ⟨⟨hA, hB⟩, by rw [hfeat]⟩
              · intro k' h
                rw [tget_tinsert]
                by_cases hk : k' = dep_key <;> simp [hk, h]
            | some fv =>
              rw [hfeat] at hC
              cases fv with
              | array vs =>
                simp only []
                split
                · refine Or.inr ⟨_, rfl, ?_, ?_⟩
                  · refine wfDeps_tinsert hwfd ?_
                    simp only [wfDepValue, Bool.and_eq_true]
                    refine ⟨⟨?_, ?_⟩, ?_⟩
                    · rw [tget_tinsert]
                      simp only [if_neg (by decide : ¬ "package" = "features")]
                      exact hA
                    · rw [tget_tinsert]
                      simp only [if_neg (by decide : ¬ "version" = "features")]
                      exact hB
                    · rw [tget_tinsert]
                      simp only [eq_self_iff_true, if_true]
                      rw [List.all_eq_true]
                      intro f hf
                      have hf' := List.mem_filter.mp hf
                      have hp := hf'.2
                      cases f <;> simp_all
                  · intro k' h
                    rw [tget_tinsert]
                    by_cases hk : k' = dep_key <;> simp [hk, h]
                · exfalso
                  rename_i hcond
                  apply hcond
                  rw [List.all_eq_true] at hC ⊢
                  intro f hf
                  have := hC f hf
                  cases f <;> simp_all
              | str s => simp at hC
              | boolean b => simp at hC
              | table tt => simp at hC
              | other => simp at hC

theorem uvaf_go_total (opts : Options) (fu : FindUpdateFn) (features : Option TomlValue)
    (vtl : Bool) (hwff : wfFeatures features = true) :
    ∀ (keys : List String) (deps : Table), wfDeps deps = true →
      (∀ k ∈ keys, (tget deps k).isSome = true) →
      (update_version_and_feature_go opts fu features vtl keys deps).isSome = true := by
  intro keys
  induction keys with
  | nil =>
    intro deps _ _
    rfl
  | cons k ks ih =>
    intro deps hwfd hpres
    rw [update_version_and_feature_go]
    by_cases hexc : opts.exclude.contains k = true
    · rw [if_pos hexc]
      exact ih deps hwfd (fun k' h => hpres k' (List.mem_cons_of_mem _ h))
    · rw [if_neg hexc]
      have hksome := hpres k (List.mem_cons_self _ _)
      cases hget : tget deps k with
      | none => rw [hget] at hksome; simp at hksome
      | some v =>
        have hwfv := wfDepValue_of_tget hwfd hget
        cases v with
        | str s =>
          simp only []
          by_cases hvtl : vtl = true
          · rw [if_pos hvtl]
            cases hfu : fu k (some s) vtl with
            | some summary =>
              show (update_version_and_feature_go opts fu features vtl ks
                (tinsert deps k (TomlValue.str summary.version.str))).isSome = true
              refine ih (tinsert deps k (TomlValue.str summary.version.str))
                (wfDeps_tinsert hwfd (by rfl)) ?_
              intro k' h
              rw [tget_tinsert]
              by_cases hk : k' = k <;>
                simp [hk, hpres k' (List.mem_cons_of_mem _ h)]
            | none =>
              show (update_version_and_feature_go opts fu features vtl ks deps).isSome
                = true
              exact ih deps hwfd (fun k' h => hpres k' (List.mem_cons_of_mem _ h))
          · rw [if_neg hvtl]
            exact ih deps hwfd (fun k' h => hpres k' (List.mem_cons_of_mem _ h))
        | table t =>
          simp only []
          cases hpk : tget t "package" with
          | none =>
            simp only [hpk]
            rcases @uvafTableArm_spec opts fu features vtl k t "" deps
                hwfv hwff hwfd
              with harm' | ⟨d', harm', hwf', hpres'⟩
            · rw [harm']
              rfl
            · rw [harm']
              exact ih d' hwf'
                (fun k' h => hpres' k' (hpres k' (List.mem_cons_of_mem _ h)))
          | some pv =>
            have hABC : (((match tget t "package" with
                | some (TomlValue.str _) => true
                | some _ => false
                | none => true)
                && (match tget t "version" with
                    | some (TomlValue.str _) => true
                    | some _ => false
                    | none => true))
                && (match tget t "features" with
                    | some (TomlValue.array vs) =>
                      vs.all (fun v => match v with
                        | TomlValue.str _ => true
                        | _ => false)
                    | some _ => false
                    | none => true)) = true := hwfv
            rw [Bool.and_eq_true, Bool.and_eq_true] at hABC
            have hA := hABC.1.1
            rw [hpk] at hA
            cases pv with
            | str s =>
              simp only [hpk]
              rcases @uvafTableArm_spec opts fu features vtl k t s deps
                  hwfv hwff hwfd
                with harm' | ⟨d', harm', hwf', hpres'⟩
              · rw [harm']
                rfl
              · rw [harm']
                exact ih d' hwf'
                  (fun k' h => hpres' k' (hpres k' (List.mem_cons_of_mem _ h)))
            | boolean b => simp at hA
            | array vs => simp at hA
            | table tt => simp at hA
            | other => simp at hA
        | boolean b => simp [wfDepValue] at hwfv
        | array vs => simp [wfDepValue] at hwfv
        | other => simp [wfDepValue] at hwfv

/-- C3 (amended): a failed registry query during latest-mode rewriting is
caught and the run is never aborted, but what continues depends on the
dependency's form.  First conjunct: for a string-form dependency the loop
continues with the next key of the same table
(src/cargo_ops/temp_project.rs:537-544).  Second conjunct: for a
table-form dependency the `return Ok(())` (lines 593-599) ends the whole
call successfully with the table as it stands, so the remaining keys of
that table are left unprocessed — contrary to the claim's "never
prevents the remaining dependencies of that table from being processed"
(see the counterexample).  Third conjunct: on well-formed tables the
rewrite always returns `Ok`, whatever the query oracle does. -/
theorem claim_registry_failure_degraded :
    (∀ (opts : Options) (fu : FindUpdateFn) (features : Option TomlValue)
       (keys : List String) (deps : Table) (dep_key req : String),
      opts.exclude.contains dep_key = false →
      tget deps dep_key = some (TomlValue.str req) →
      fu dep_key (some req) true = none →
      update_version_and_feature_go opts fu features true (dep_key :: keys) deps
        = update_version_and_feature_go opts fu features true keys deps) ∧
    (∀ (opts : Options) (fu : FindUpdateFn) (features : Option TomlValue)
       (keys : List String) (deps : Table) (dep_key r : String) (t : Table),
      opts.exclude.contains dep_key = false →
      tget deps dep_key = some (TomlValue.table t) →
      tget t "package" = none →
      tget t "optional" = none →
      feature_includes opts dep_key false features = some true →
      tget t "version" = some (TomlValue.str r) →
      fu dep_key (some r) true = none →
      update_version_and_feature_go opts fu features true (dep_key :: keys) deps
        = some deps) ∧
    (∀ (opts : Options) (fu : FindUpdateFn) (features : Option TomlValue)
       (vtl : Bool) (deps : Table),
      wfDeps deps = true → wfFeatures features = true →
      (update_version_and_feature opts fu features vtl deps).isSome = true) := by
  refine ⟨?_, ?_, ?_⟩
  · intro opts fu features keys deps dep_key req hexc hget hfu
    rw [update_version_and_feature_go, if_neg (by rw [hexc]; simp)]
    simp [hget, hfu]
  · intro opts fu features keys deps dep_key r t hexc hget hpk hopt hfi hver hfu
    rw [update_version_and_feature_go, if_neg (by rw [hexc]; simp)]
    simp only [hget]
    simp only [hpk]
    unfold uvafTableArm
    rw [if_neg (by simp)]
    dsimp only []
    rw [hopt]
    simp only [hfi]
    rw [hver]
    simp only []
    simp only [if_true]
    rw [hfu]
  · intro opts fu features vtl deps hwfd hwff
    unfold update_version_and_feature
    refine uvaf_go_total opts fu features vtl hwff (deps.map Prod.fst) deps hwfd ?_
    intro k hk
    rcases List.mem_map.mp hk with ⟨e, he, hek⟩
    unfold tget
    rw [Option.isSome_map']
    rw [List.find?_isSome]
    exact ⟨e, he, by simp [hek]⟩

/-- Witness for the C3 theorem: the three conjuncts applied at concrete
inputs — a failing string-form query that continues, a failing table-form
query that ends the call with `Ok`, and a completed rewrite. -/
theorem claim_registry_failure_degraded_witness :
    update_version_and_feature_go optsDefault (fun _ _ _ => none) none true
        ["x"] [("x", TomlValue.str "1.0")]
      = update_version_and_feature_go optsDefault (fun _ _ _ => none) none true
        [] [("x", TomlValue.str "1.0")] ∧
    update_version_and_feature_go optsDefault (fun _ _ _ => none) none true
        ["y", "z"] [("y", TomlValue.table [("version", TomlValue.str "1.0")]),
                    ("z", TomlValue.str "2.0")]
      = some [("y", TomlValue.table [("version", TomlValue.str "1.0")]),
              ("z", TomlValue.str "2.0")] ∧
    (update_version_and_feature optsDefault (fun _ _ _ => none) none true
        [("w", TomlValue.str "1.0")]).isSome = true :=
  ⟨claim_registry_failure_degraded.1 optsDefault (fun _ _ _ => none) none
      [] [("x", TomlValue.str "1.0")] "x" "1.0" (by decide) rfl rfl,
   claim_registry_failure_degraded.2.1 optsDefault (fun _ _ _ => none) none
      ["z"] [("y", TomlValue.table [("version", TomlValue.str "1.0")]),
             ("z", TomlValue.str "2.0")] "y" "1.0"
      [("version", TomlValue.str "1.0")]
      (by decide) rfl rfl rfl (by decide) rfl rfl,
   claim_registry_failure_degraded.2.2 optsDefault (fun _ _ _ => none) none true
      [("w", TomlValue.str "1.0")] (by decide) (by decide)⟩

/-- Splitting membership in a list along its last element. -/
theorem mem_dropLast_or_eq {α : Type} {l : List α} {a x : α}
    (hl : l.getLast? = some a) (hx : x ∈ l) : x ∈ l.dropLast ∨ x = a := by
  have hne : l ≠ [] := by
    intro h
    subst h
    simp at hl
  have hsplit : l.dropLast ++ [l.getLast hne] = l := List.dropLast_append_getLast hne
  have ha : l.getLast hne = a := by
    have h2 := List.getLast?_eq_getLast l hne
    rw [hl] at h2
    exact (Option.some.inj h2).symm
  rw [← hsplit] at hx
  rcases List.mem_append.mp hx with h | h
  · exact Or.inl h
  · right
    rw [List.mem_singleton] at h
    rw [h, ha]

/-- Characterisation of one `print_list` iteration
(src/cargo_ops/elaborate_workspace.rs:292-357): the popped path ends in
some package; an ignored package contributes nothing and enqueues
nothing; otherwise every enqueued path extends the popped path by one
element and at most one line, paired with the popped path, is appended. -/
theorem print_list_step_spec {w : ElaborateWorkspace} {opts : Options}
    {cache : StatusCache} {skip : List String} {path : List PackageId}
    {acc newAcc : List (List PackageId × String)} {newPaths : List (List PackageId)}
    (h : print_list_step w opts cache skip path acc = some (newPaths, newAcc)) :
    ∃ pkg, path.getLast? = some pkg ∧
      ((opts.ignore.contains pkg.name = true ∧ newPaths = [] ∧ newAcc = acc) ∨
       (opts.ignore.contains pkg.name = false ∧
        (∀ np ∈ newPaths, ∃ d, np = path ++ [d]) ∧
        (newAcc = acc ∨ ∃ line, newAcc = acc ++ [(path, line)]))) := by
  unfold print_list_step at h
  cases hlast : path.getLast? with
  | none => rw [hlast] at h; simp at h
  | some pkg =>
    rw [hlast] at h
    simp only [] at h
    refine ⟨pkg, rfl, ?_⟩
    by_cases hig : opts.ignore.contains pkg.name = true
    · rw [if_pos hig] at h
      simp only [Option.some.injEq, Prod.mk.injEq] at h
      exact Or.inl ⟨hig, h.1.symm, h.2.symm⟩
    · rw [if_neg hig] at h
      refine Or.inr ⟨by simpa using hig, ?_⟩
      cases hcg : cacheGet cache path with
      | none => rw [hcg] at h; simp at h
      | some status =>
        rw [hcg] at h
        simp only [] at h
        split at h
        · exact absurd h (by simp)
        · rename_i acc' heq
          have haccd : acc' = acc ∨ ∃ line, acc' = acc ++ [(path, line)] := by
            split at heq
            · split at heq
              · exact absurd heq (by simp)
              · exact Or.inr ⟨_, (Option.some.inj heq).symm⟩
            · exact Or.inl (Option.some.inj heq).symm
          split at h
          · split at h
            · exact absurd h (by simp)
            · rename_i deps hdk
              rw [Option.some.injEq, Prod.mk.injEq] at h
              refine ⟨?_, h.2 ▸ haccd⟩
              intro np hnp
              rw [← h.1] at hnp
              rcases List.mem_map.mp hnp with ⟨d, _, rfl⟩
              exact ⟨d, rfl⟩
          · rw [Option.some.injEq, Prod.mk.injEq] at h
            refine ⟨?_, h.2 ▸ haccd⟩
            intro np hnp
            rw [← h.1] at hnp
            simp at hnp

/-- Through the whole `print_list` loop: if every queued path is
ignore-free except possibly at its last element, and every accumulated
line came from an ignore-free path, then every output line came from an
ignore-free path. -/
theorem print_list_aux_ignore (w : ElaborateWorkspace) (opts : Options)
    (cache : StatusCache) (skip : List String) :
    ∀ (fuel : Nat) (queue : List (List PackageId))
      (acc out : List (List PackageId × String)),
      (∀ p ∈ queue, ∀ x ∈ p.dropLast, opts.ignore.contains x.name = false) →
      (∀ e ∈ acc, ∀ x ∈ e.1, opts.ignore.contains x.name = false) →
      print_list_aux w opts cache skip fuel queue acc = some out →
      ∀ e ∈ out, ∀ x ∈ e.1, opts.ignore.contains x.name = false := by
  intro fuel
  induction fuel with
  | zero =>
    intro queue acc out hq hacc hrun
    cases queue with
    | nil =>
      simp only [print_list_aux, Option.some.injEq] at hrun
      exact fun e he => hacc e (hrun ▸ he)
    | cons p rest => simp [print_list_aux] at hrun
  | succ fuel ih =>
    intro queue acc out hq hacc hrun
    cases queue with
    | nil =>
      simp only [print_list_aux, Option.some.injEq] at hrun
      exact fun e he => hacc e (hrun ▸ he)
    | cons path rest =>
      rw [print_list_aux] at hrun
      cases hstep : print_list_step w opts cache skip path acc with
      | none => rw [hstep] at hrun; simp at hrun
      | some pr =>
        obtain ⟨newPaths, acc'⟩ := pr
        rw [hstep] at hrun
        obtain ⟨pkg, hlast, hbr⟩ := print_list_step_spec hstep
        have hqrest : ∀ p ∈ rest, ∀ x ∈ p.dropLast,
            opts.ignore.contains x.name = false :=
          fun p hp => hq p (List.mem_cons_of_mem _ hp)
        rcases hbr with ⟨hig, hnp, hacc'⟩ | ⟨hig, hext, hacc'⟩
        · subst hnp
          exact ih (rest ++ []) acc' out (fun p hp => hqrest p (by simpa using hp))
            (hacc'.symm ▸ hacc) hrun
        · have hpathfree : ∀ x ∈ path, opts.ignore.contains x.name = false := by
            intro x hx
            rcases mem_dropLast_or_eq hlast hx with hmem | hmem
            · exact hq path (List.mem_cons_self path rest) x hmem
            · rw [hmem]
              exact hig
          refine ih (rest ++ newPaths) acc' out ?_ ?_ hrun
          · intro p hp
            rcases List.mem_append.mp hp with hmem | hmem
            · exact hqrest p hmem
            · rcases hext p hmem with ⟨d, rfl⟩
              intro x hx
              rw [List.dropLast_concat] at hx
              exact hpathfree x hx
          · rcases hacc' with rfl | ⟨line, rfl⟩
            · exact hacc
            · intro e he
              rcases List.mem_append.mp he with hmem | hmem
              · exact hacc e hmem
              · rw [List.mem_singleton] at hmem
                subst hmem
                exact hpathfree

/-- Characterisation of one `print_json` iteration
(src/cargo_ops/elaborate_workspace.rs:398-476), analogous to
`print_list_step_spec`: an ignored package changes nothing; otherwise
every enqueued path extends the popped one and at most one `Metadata`
row is pushed into the set, its insertion attempt recorded with the
popped path. -/
theorem print_json_step_spec {w : ElaborateWorkspace} {opts : Options}
    {cache : StatusCache} {skip : List String} {path : List PackageId}
    {set newSet : List Metadata} {att newAtt : List (List PackageId × Metadata)}
    {newPaths : List (List PackageId)}
    (h : print_json_step w opts cache skip path set att
      = some (newPaths, newSet, newAtt)) :
    ∃ pkg, path.getLast? = some pkg ∧
      ((opts.ignore.contains pkg.name = true ∧ newPaths = [] ∧
        newSet = set ∧ newAtt = att) ∨
       (opts.ignore.contains pkg.name = false ∧
        (∀ np ∈ newPaths, ∃ d, np = path ++ [d]) ∧
        ((newSet = set ∧ newAtt = att) ∨
         ∃ m, newSet = insertMetadata set m ∧ newAtt = att ++ [(path, m)]))) := by
  unfold print_json_step at h
  cases hlast : path.getLast? with
  | none => rw [hlast] at h; simp at h
  | some pkg =>
    rw [hlast] at h
    simp only [] at h
    refine ⟨pkg, rfl, ?_⟩
    by_cases hig : opts.ignore.contains pkg.name = true
    · rw [if_pos hig] at h
      simp only [Option.some.injEq, Prod.mk.injEq] at h
      exact Or.inl ⟨hig, h.1.symm, h.2.1.symm, h.2.2.symm⟩
    · rw [if_neg hig] at h
      refine Or.inr ⟨by simpa using hig, ?_⟩
      cases hcg : cacheGet cache path with
      | none => rw [hcg] at h; simp at h
      | some status =>
        rw [hcg] at h
        simp only [] at h
        split at h
        · exact absurd h (by simp)
        · rename_i set' att' heq
          have haccd : (set' = set ∧ att' = att) ∨
              ∃ m, set' = insertMetadata set m ∧ att' = att ++ [(path, m)] := by
            split at heq
            · split at heq
              · exact absurd heq (by simp)
              · rename_i line hll
                rw [Option.some.injEq, Prod.mk.injEq] at heq
                exact Or.inr ⟨line, heq.1.symm, heq.2.symm⟩
            · rw [Option.some.injEq, Prod.mk.injEq] at heq
              exact Or.inl ⟨heq.1.symm, heq.2.symm⟩
          split at h
          · split at h
            · exact absurd h (by simp)
            · rename_i deps hdk
              rw [Option.some.injEq, Prod.mk.injEq, Prod.mk.injEq] at h
              refine ⟨?_, h.2.1 ▸ h.2.2 ▸ haccd⟩
              intro np hnp
              rw [← h.1] at hnp
              rcases List.mem_map.mp hnp with ⟨d, _, rfl⟩
              exact ⟨d, rfl⟩
          · rw [Option.some.injEq, Prod.mk.injEq, Prod.mk.injEq] at h
            refine ⟨?_, h.2.1 ▸ h.2.2 ▸ haccd⟩
            intro np hnp
            rw [← h.1] at hnp
            simp at hnp

/-- Reading the three-way name comparison of `Metadata`. -/
theorem cmpName_cases (m y : Metadata) :
    (Metadata.cmpName m y = Ordering.lt ↔ m.name < y.name) ∧
    (Metadata.cmpName m y = Ordering.eq ↔ m.name = y.name) ∧
    (Metadata.cmpName m y = Ordering.gt ↔ y.name < m.name) := by
  unfold Metadata.cmpName
  by_cases h1 : m.name < y.name
  · rw [if_pos h1]
    exact ⟨⟨fun _ => h1, fun _ => rfl⟩,
           ⟨fun h => Ordering.noConfusion h, fun h => absurd h (ne_of_lt h1)⟩,
           ⟨fun h => Ordering.noConfusion h, fun h => absurd h1 (asymm h)⟩⟩
  · by_cases h2 : m.name = y.name
    · rw [if_neg h1, if_pos h2]
      exact ⟨⟨fun h => Ordering.noConfusion h, fun h => absurd h h1⟩,
             ⟨fun _ => h2, fun _ => rfl⟩,
             ⟨fun h => Ordering.noConfusion h, fun h => absurd h2.symm (ne_of_lt h)⟩⟩
    · rw [if_neg h1, if_neg h2]
      have h3 : y.name < m.name :=
        lt_of_le_of_ne (le_of_not_lt h1) (fun he => h2 he.symm)
      exact ⟨⟨fun h => Ordering.noConfusion h, fun h => absurd h h1⟩,
             ⟨fun h => Ordering.noConfusion h, fun h => absurd h h2⟩,
             ⟨fun _ => h3, fun _ => rfl⟩⟩

/-- Membership through `insertMetadata`: nothing but the inserted row is
ever added. -/
theorem insertMetadata_mem {s : List Metadata} {m x : Metadata}
    (h : x ∈ insertMetadata s m) : x ∈ s ∨ x = m := by
  induction s with
  | nil =>
    rw [insertMetadata, List.mem_singleton] at h
    exact Or.inr h
  | cons y ys ih =>
    rw [insertMetadata] at h
    cases hc : Metadata.cmpName m y with
    | lt =>
      rw [hc] at h
      simp only [] at h
      rcases List.mem_cons.mp h with rfl | h
      · exact Or.inr rfl
      · exact Or.inl h
    | eq =>
      rw [hc] at h
      exact Or.inl h
    | gt =>
      rw [hc] at h
      simp only [] at h
      rcases List.mem_cons.mp h with rfl | h
      · exact Or.inl (List.mem_cons_self _ _)
      · rcases ih h with h' | h'
        · exact Or.inl (List.mem_cons_of_mem _ h')
        · exact Or.inr h'

/-- `insertMetadata` preserves strict sortedness of the names. -/
theorem insertMetadata_sorted {s : List Metadata} (m : Metadata)
    (hs : List.Pairwise (fun a b => a.name < b.name) s) :
    List.Pairwise (fun a b => a.name < b.name) (insertMetadata s m) := by
  induction s with
  | nil => simp [insertMetadata]
  | cons y ys ih =>
    rw [List.pairwise_cons] at hs
    obtain ⟨hy, hys⟩ := hs
    rw [insertMetadata]
    cases hc : Metadata.cmpName m y with
    | lt =>
      simp only []
      have hmy : m.name < y.name := (cmpName_cases m y).1.mp hc
      rw [List.pairwise_cons]
      refine ⟨?_, List.pairwise_cons.mpr ⟨hy, hys⟩⟩
      intro b hb
      rcases List.mem_cons.mp hb with rfl | hb
      · exact hmy
      · exact lt_trans hmy (hy b hb)
    | eq =>
      exact List.pairwise_cons.mpr ⟨hy, hys⟩
    | gt =>
      simp only []
      have hym : y.name < m.name := (cmpName_cases m y).2.2.mp hc
      rw [List.pairwise_cons]
      refine ⟨?_, ih hys⟩
      intro b hb
      rcases insertMetadata_mem hb with hb | rfl
      · exact hy b hb
      · exact hym

/-- On a strictly name-sorted set, inserting a row whose name is already
present leaves the set unchanged: the existing row is kept and the new
one dropped (`BTreeSet::insert` on an `Ord`-equal element). -/
theorem insertMetadata_keep {s : List Metadata} {m m' : Metadata}
    (hs : List.Pairwise (fun a b => a.name < b.name) s)
    (hmem : m' ∈ s) (hname : m'.name = m.name) : insertMetadata s m = s := by
  induction s with
  | nil => simp at hmem
  | cons y ys ih =>
    rw [List.pairwise_cons] at hs
    obtain ⟨hy, hys⟩ := hs
    rw [insertMetadata]
    rcases List.mem_cons.mp hmem with heq | hmem'
    · have hmy : m.name = y.name := by rw [← hname, heq]
      rw [(cmpName_cases m y).2.1.mpr hmy]
    · have hym : y.name < m.name := hname ▸ hy m' hmem'
      rw [(cmpName_cases m y).2.2.mpr hym]
      simp only []
      rw [ih hys hmem']

/-- Through the whole `print_json` loop: if every queued path is
ignore-free except possibly at its last element, every recorded insertion
attempt came from an ignore-free path, and every set member already has a
recorded attempt, then the same holds at the end of the run. -/
theorem print_json_aux_ignore (w : ElaborateWorkspace) (opts : Options)
    (cache : StatusCache) (skip : List String) :
    ∀ (fuel : Nat) (queue : List (List PackageId)) (set : List Metadata)
      (att : List (List PackageId × Metadata))
      (out : List Metadata × List (List PackageId × Metadata)),
      (∀ p ∈ queue, ∀ x ∈ p.dropLast, opts.ignore.contains x.name = false) →
      (∀ e ∈ att, ∀ x ∈ e.1, opts.ignore.contains x.name = false) →
      (∀ m ∈ set, ∃ p, (p, m) ∈ att) →
      print_json_aux w opts cache skip fuel queue set att = some out →
      (∀ e ∈ out.2, ∀ x ∈ e.1, opts.ignore.contains x.name = false) ∧
      (∀ m ∈ out.1, ∃ p, (p, m) ∈ out.2) := by
  intro fuel
  induction fuel with
  | zero =>
    intro queue set att out hq hatt hset hrun
    cases queue with
    | nil =>
      simp only [print_json_aux, Option.some.injEq] at hrun
      subst hrun
      exact ⟨hatt, hset⟩
    | cons p rest => simp [print_json_aux] at hrun
  | succ fuel ih =>
    intro queue set att out hq hatt hset hrun
    cases queue with
    | nil =>
      simp only [print_json_aux, Option.some.injEq] at hrun
      subst hrun
      exact ⟨hatt, hset⟩
    | cons path rest =>
      rw [print_json_aux] at hrun
      cases hstep : print_json_step w opts cache skip path set att with
      | none => rw [hstep] at hrun; simp at hrun
      | some pr =>
        obtain ⟨newPaths, newSet, newAtt⟩ := pr
        rw [hstep] at hrun
        obtain ⟨pkg, hlast, hbr⟩ := print_json_step_spec hstep
        have hqrest : ∀ p ∈ rest, ∀ x ∈ p.dropLast,
            opts.ignore.contains x.name = false :=
          fun p hp => hq p (List.mem_cons_of_mem _ hp)
        rcases hbr with ⟨hig, hnp, hst, hat⟩ | ⟨hig, hext, hrest⟩
        · subst hnp
          exact ih (rest ++ []) newSet newAtt out
            (fun p hp => hqrest p (by simpa using hp))
            (hat.symm ▸ hatt) (hat.symm ▸ hst.symm ▸ hset) hrun
        · have hpathfree : ∀ x ∈ path, opts.ignore.contains x.name = false := by
            intro x hx
            rcases mem_dropLast_or_eq hlast hx with hmem | hmem
            · exact hq path (List.mem_cons_self path rest) x hmem
            · rw [hmem]
              exact hig
          have hqnew : ∀ p ∈ rest ++ newPaths, ∀ x ∈ p.dropLast,
              opts.ignore.contains x.name = false := by
            intro p hp
            rcases List.mem_append.mp hp with hmem | hmem
            · exact hqrest p hmem
            · rcases hext p hmem with ⟨d, rfl⟩
              intro x hx
              rw [List.dropLast_concat] at hx
              exact hpathfree x hx
          rcases hrest with ⟨hst2, hat2⟩ | ⟨m, hm1, hm2⟩
          · exact ih (rest ++ newPaths) newSet newAtt out hqnew
              (hat2.symm ▸ hatt) (hst2.symm ▸ hat2.symm ▸ hset) hrun
          · subst hm1
            subst hm2
            refine ih (rest ++ newPaths) (insertMetadata set m)
              (att ++ [(path, m)]) out hqnew ?_ ?_ hrun
            · intro e he
              rcases List.mem_append.mp he with hmem | hmem
              · exact hatt e hmem
              · rw [List.mem_singleton] at hmem
                subst hmem
                exact hpathfree
            · intro x hx
              rcases insertMetadata_mem hx with hmem | rfl
              · rcases hset x hmem with ⟨p, hp⟩
                exact ⟨p, List.mem_append.mpr (Or.inl hp)⟩
              · exact ⟨path, List.mem_append.mpr (Or.inr (List.mem_singleton.mpr rfl))⟩

/-- Through the whole `print_json` loop the dependency set stays strictly
sorted by name. -/
theorem print_json_aux_sorted (w : ElaborateWorkspace) (opts : Options)
    (cache : StatusCache) (skip : List String) :
    ∀ (fuel : Nat) (queue : List (List PackageId)) (set : List Metadata)
      (att : List (List PackageId × Metadata))
      (out : List Metadata × List (List PackageId × Metadata)),
      List.Pairwise (fun a b => a.name < b.name) set →
      print_json_aux w opts cache skip fuel queue set att = some out →
      List.Pairwise (fun a b => a.name < b.name) out.1 := by
  intro fuel
  induction fuel with
  | zero =>
    intro queue set att out hs hrun
    cases queue with
    | nil =>
      simp only [print_json_aux, Option.some.injEq] at hrun
      subst hrun
      exact hs
    | cons p rest => simp [print_json_aux] at hrun
  | succ fuel ih =>
    intro queue set att out hs hrun
    cases queue with
    | nil =>
      simp only [print_json_aux, Option.some.injEq] at hrun
      subst hrun
      exact hs
    | cons path rest =>
      rw [print_json_aux] at hrun
      cases hstep : print_json_step w opts cache skip path set att with
      | none => rw [hstep] at hrun; simp at hrun
      | some pr =>
        obtain ⟨newPaths, newSet, newAtt⟩ := pr
        rw [hstep] at hrun
        obtain ⟨pkg, hlast, hbr⟩ := print_json_step_spec hstep
        rcases hbr with ⟨hig, hnp, hst, hat⟩ | ⟨hig, hext, hrest⟩
        · exact ih (rest ++ newPaths) newSet newAtt out (hst.symm ▸ hs) hrun
        · rcases hrest with ⟨hst2, hat2⟩ | ⟨m, hm1, hm2⟩
          · exact ih (rest ++ newPaths) newSet newAtt out (hst2.symm ▸ hs) hrun
          · subst hm1
            subst hm2
            exact ih (rest ++ newPaths) (insertMetadata set m)
              (att ++ [(path, m)]) out (insertMetadata_sorted m hs) hrun

/-- C9: in both reporters an ignored package name is skipped before its
children are ever enqueued (src/cargo_ops/elaborate_workspace.rs:292-298
and 398-404).  First conjunct: every line `print_list` outputs is paired
with a traversal path on which no package is ignored — so no line exists
for an ignored package, nor for any package reached only through one.
Second conjunct: the same for `print_json`'s recorded insertion attempts,
and every `Metadata` row of its dependency set stems from some recorded
attempt, hence also from an ignore-free path. -/
theorem claim_ignored_subtrees :
    (∀ (w : ElaborateWorkspace) (opts : Options) (cache : StatusCache)
       (root : PackageId) (skip : List String) (fuel : Nat)
       (out : List (List PackageId × String)),
      print_list w opts cache root skip fuel = some out →
      ∀ e ∈ out, ∀ x ∈ e.1, opts.ignore.contains x.name = false) ∧
    (∀ (w : ElaborateWorkspace) (opts : Options) (cache : StatusCache)
       (root : PackageId) (skip : List String) (fuel : Nat)
       (res : List Metadata × List (List PackageId × Metadata)),
      print_json w opts cache root skip fuel = some res →
      (∀ e ∈ res.2, ∀ x ∈ e.1, opts.ignore.contains x.name = false) ∧
      (∀ m ∈ res.1, ∃ p, (p, m) ∈ res.2)) := by
  constructor
  · intro w opts cache root skip fuel out hrun
    refine print_list_aux_ignore w opts cache skip fuel [[root]] [] out ?_ ?_ hrun
    · intro p hp
      rw [List.mem_singleton] at hp
      subst hp
      intro x hx
      simp at hx
    · intro e he
      simp at he
  · intro w opts cache root skip fuel res hrun
    refine print_json_aux_ignore w opts cache skip fuel [[root]] [] [] res ?_ ?_ ?_ hrun
    · intro p hp
      rw [List.mem_singleton] at hp
      subst hp
      intro x hx
      simp at hx
    · intro e he
      simp at he
    · intro m hm
      simp at hm

/-- Witness for the C9 theorem: a concrete `print_list` and `print_json`
run over the cyclic fixture with the name "a" ignored; every produced
line and every recorded attempt avoids "a", and every set row has a
recorded attempt. -/
theorem claim_ignored_subtrees_witness :
    ((print_list wsCycle optsIgnoreA cacheRch pkgR [] 2).getD []).all
      (fun e => e.1.all (fun x => !(optsIgnoreA.ignore.contains x.name))) = true ∧
    ((print_json wsCycle optsIgnoreA cacheRch pkgR [] 2).getD ([], [])).2.all
      (fun e => e.1.all (fun x => !(optsIgnoreA.ignore.contains x.name))) = true ∧
    ((print_json wsCycle optsIgnoreA cacheRch pkgR [] 2).getD ([], [])).1.all
      (fun m => ((print_json wsCycle optsIgnoreA cacheRch pkgR [] 2).getD
        ([], [])).2.any (fun e => decide (e.2 = m))) = true := by
  have h1 := claim_ignored_subtrees.1 wsCycle optsIgnoreA cacheRch pkgR [] 2
    ((print_list wsCycle optsIgnoreA cacheRch pkgR [] 2).getD []) (by decide)
  have h2 := claim_ignored_subtrees.2 wsCycle optsIgnoreA cacheRch pkgR [] 2
    ((print_json wsCycle optsIgnoreA cacheRch pkgR [] 2).getD ([], [])) (by decide)
  refine ⟨?_, ?_, ?_⟩
  · rw [List.all_eq_true]
    intro e he
    rw [List.all_eq_true]
    intro x hx
    rw [h1 e he x hx]
    rfl
  · rw [List.all_eq_true]
    intro e he
    rw [List.all_eq_true]
    intro x hx
    rw [h2.1 e he x hx]
    rfl
  · rw [List.all_eq_true]
    intro m hm
    rcases h2.2 m hm with ⟨p, hp⟩
    rw [List.any_eq_true]
    exact ⟨(p, m), hp, by simp⟩

/-- C10: JSON output de-duplicates dependency rows by name alone.  First
conjunct: `Metadata`'s manual `Ord` compares only `name`
(src/cargo_ops/elaborate_workspace.rs:59-61) while its derived
`PartialEq` compares every field, so two rows can be `Ord`-equal yet
different.  Second conjunct: inserting a row whose name is already
present into the (name-sorted) `BTreeSet` keeps the existing row, so of
two same-named rows with different remaining fields only the first
inserted one appears.  Third conjunct: the dependency set `print_json`
builds is strictly sorted by name and never holds two rows with the
same name. -/
theorem claim_json_dedup_by_name :
    (∃ m1 m2 : Metadata, Metadata.cmpName m1 m2 = Ordering.eq ∧ m1 ≠ m2) ∧
    (∀ (s : List Metadata) (m m' : Metadata),
      List.Pairwise (fun a b => a.name < b.name) s →
      m' ∈ s → m'.name = m.name →
      insertMetadata s m = s) ∧
    (∀ (w : ElaborateWorkspace) (opts : Options) (cache : StatusCache)
       (root : PackageId) (skip : List String) (fuel : Nat)
       (res : List Metadata × List (List PackageId × Metadata)),
      print_json w opts cache root skip fuel = some res →
      List.Pairwise (fun a b => a.name < b.name) res.1 ∧
      (res.1.map (fun m => m.name)).Nodup) := by
  refine ⟨⟨mdDep1, mdDep2, ?_, ?_⟩, ?_, ?_⟩
  · rw [(cmpName_cases mdDep1 mdDep2).2.1]
    rfl
  · intro h
    have : mdDep1.project = mdDep2.project := by rw [h]
    simp [mdDep1, mdDep2] at this
  · intro s m m' hs hmem hname
    exact insertMetadata_keep hs hmem hname
  · intro w opts cache root skip fuel res hrun
    have hsorted := print_json_aux_sorted w opts cache skip fuel [[root]] [] []
      res (by simp) hrun
    refine ⟨hsorted, ?_⟩
    exact List.pairwise_map.mpr (hsorted.imp (fun h => ne_of_lt h))

/-- Witness for the C10 theorem: inserting a same-named row into a
concrete singleton set keeps the existing row, and a concrete
`print_json` run yields a dependency set with no repeated name. -/
theorem claim_json_dedup_by_name_witness :
    insertMetadata [mdDep1] mdDep2 = [mdDep1] ∧
    (((print_json wsCycle optsIgnoreA cacheRch pkgR [] 2).getD ([], [])).1.map
      (fun m => m.name)).Nodup :=
  ⟨claim_json_dedup_by_name.2.1 [mdDep1] mdDep2 mdDep1 (by simp) (by simp) rfl,
   (claim_json_dedup_by_name.2.2 wsCycle optsIgnoreA cacheRch pkgR [] 2
      ((print_json wsCycle optsIgnoreA cacheRch pkgR [] 2).getD ([], []))
      (by decide)).2⟩
